import Mathlib

/-!
# gopenid: a verification development

A shallow embedding of `gopenid.go` (package `gopenid`): the anti-replay nonce
cache `oldNonces`, the endpoint resolver `getEndpoint`, the URL composer `join`,
`GetAuthURL` and `VerifyAuth`, followed by theorems about them.

Conventions of the embedding.

* A Go `string` is an immutable byte sequence: `GoString := List UInt8`.
  `str "..."` gives the bytes of a literal.
* A Go pointer `*oldNonce` is `Option Nat`: `none` is `nil`, `some p` is the
  address `p` of a node in the heap `oldNonces.heap` (a node allocated by
  `&oldNonce{...}` gets the next free address, the length of the heap).
* A Go function that can abort with a run-time error (nil dereference, index out
  of range) returns `Run α`; so does a loop that is run with a step budget
  (`fuel`). A Go result `(value, error)` is an `Except Error value`.
* The package-level variables are the fields of `World`; the network (the
  discovery request and the direct verification request) is an oracle, `Net`.
* The functions of `strings` and `net/url` that the package calls are embedded
  after the source of the Go library (Go 1.26, default `GODEBUG` settings):
  `ParseQuery` refuses a query of more than 10000 pieces, and `Parse` refuses a
  bracketed host that is not an IPv6 address and a host with a colon that does
  not introduce its port.

The file has two parts: the definitions (the embedding, the predicates used in
the statements, example inputs), then the theorems.
-/

namespace Gopenid

/-! ## Strings -/

/-- A Go string: a sequence of bytes. -/
abbrev GoString := List UInt8

/-- The bytes (UTF-8) of a string literal. -/
def str (s : String) : GoString := s.toList.flatMap String.utf8EncodeChar

/-! ## Outcomes of a call -/

/-- The outcome of running a piece of Go code: it returns a value (`done`), it
aborts with a run-time error such as a nil dereference or an index out of range
(`crash`), or the step budget of a loop was used up before it ended
(`timeout`). -/
inductive Run (α : Type) where
  | done (a : α)
  | crash
  | timeout
  deriving DecidableEq, Repr

/-- Sequencing of outcomes. -/
def Run.bind {α β : Type} (x : Run α) (f : α → Run β) : Run β :=
  match x with
  | .done a => f a
  | .crash => .crash
  | .timeout => .timeout

/-- Equality of results `(value, error)` is decidable. -/
instance instDecidableEqExcept {ε α : Type} [DecidableEq ε] [DecidableEq α] :
    DecidableEq (Except ε α) := fun a b =>
  match a, b with
  | .ok x, .ok y => if h : x = y then isTrue (by rw [h]) else isFalse (fun e => h (by cases e; rfl))
  | .error x, .error y =>
    if h : x = y then isTrue (by rw [h]) else isFalse (fun e => h (by cases e; rfl))
  | .ok _, .error _ => isFalse (fun e => by cases e)
  | .error _, .ok _ => isFalse (fun e => by cases e)

/-! ## The nonce cache (`oldNonce`, `oldNonces`) -/

/-- `const maxOldNonces = 100000`. -/
def maxOldNonces : Int := 100000

/-- `type oldNonce struct`: a node of the doubly linked insertion sequence. The
time stamp `at` is written once with `time.Now()` and read only by `String()`;
it is not part of the embedding. -/
structure oldNonce where
  nonce : GoString
  next : Option Nat
  prev : Option Nat
  deriving DecidableEq, Repr

/-- `type oldNonces struct`. `heap` holds every node allocated so far, a pointer
being an index into it; `nonceMap` is the Go map as an association list with
distinct keys. The lock has no content in a sequential run. -/
structure oldNonces where
  heap : List oldNonce
  nonceMap : List (GoString × Nat)
  nonceListStart : Option Nat
  nonceListEnd : Option Nat
  max : Int
  deriving DecidableEq, Repr

/-- `func newOldNonces() *oldNonces`. -/
def newOldNonces : oldNonces :=
  { heap := [], nonceMap := [], nonceListStart := none, nonceListEnd := none,
    max := maxOldNonces }

/-- The cache `newOldNonces()` with its field `max` set to `c`. -/
def newOldNoncesWithMax (c : Int) : oldNonces :=
  { newOldNonces with max := c }

/-- Go map lookup `m[k]` with the comma-ok form. -/
def mapLookup (m : List (GoString × Nat)) (k : GoString) : Option Nat :=
  match m with
  | [] => none
  | (k', v) :: rest => if k' = k then some v else mapLookup rest k

/-- Go map deletion `delete(m, k)`. -/
def mapDelete (m : List (GoString × Nat)) (k : GoString) : List (GoString × Nat) :=
  m.filter (fun e => decide (e.1 ≠ k))

/-- Go map assignment `m[k] = v`. -/
def mapInsert (m : List (GoString × Nat)) (k : GoString) (v : Nat) : List (GoString × Nat) :=
  match mapLookup m k with
  | none => (k, v) :: m
  | some _ => m.map (fun e => if e.1 = k then (k, v) else e)

/-- The keys of the cache. -/
def oldNonces.keys (self : oldNonces) : List GoString :=
  self.nonceMap.map Prod.fst

/-- `func (self *oldNonces) size() int`. -/
def oldNonces.size (self : oldNonces) : Int :=
  (self.nonceMap.length : Int)

/-- The eviction loop of `add` (lines 79 to 84), run for at most `fuel`
iterations:

    for len(self.nonceMap) > self.max {
        last := self.nonceListEnd
        last.prev.next = nil
        self.nonceListEnd = last.prev
        delete(self.nonceMap, last.nonce)
    }
-/
def oldNonces.evict : Nat → oldNonces → Run oldNonces
  | 0, self => if self.size > self.max then .timeout else .done self
  | fuel + 1, self =>
    if self.size > self.max then
      match self.nonceListEnd with
      | none => .crash
      | some l =>
        match self.heap[l]? with
        | none => .crash
        | some last =>
          match last.prev with
          | none => .crash
          | some p =>
            match self.heap[p]? with
            | none => .crash
            | some pn =>
              oldNonces.evict fuel
                { self with
                  heap := self.heap.set p { pn with next := none }
                  nonceListEnd := some p
                  nonceMap := mapDelete self.nonceMap last.nonce }
    else .done self

/-- `func (self *oldNonces) add(s string) bool`, the eviction loop being given
`fuel` iterations. The result is the returned boolean and the cache after the
call. -/
def oldNonces.add (fuel : Nat) (self : oldNonces) (s : GoString) : Run (Bool × oldNonces) :=
  match mapLookup self.nonceMap s with
  | some _ => .done (false, self)
  | none =>
    -- n := &oldNonce{nonce: s, next: self.nonceListStart}
    let p := self.heap.length
    let n : oldNonce := { nonce := s, next := self.nonceListStart, prev := none }
    let heap1 := self.heap ++ [n]
    -- self.nonceListStart = n; if n.next != nil { n.next.prev = n }
    let linked : Run (List oldNonce) :=
      match n.next with
      | none => .done heap1
      | some q =>
        match heap1[q]? with
        | none => .crash
        | some qn => .done (heap1.set q { qn with prev := some p })
    linked.bind fun heap2 =>
      -- if self.nonceListEnd == nil { self.nonceListEnd = self.nonceListStart }
      let e := match self.nonceListEnd with
        | none => some p
        | some l => some l
      (oldNonces.evict fuel
        { self with
          heap := heap2
          nonceListStart := some p
          nonceListEnd := e
          nonceMap := mapInsert self.nonceMap s p }).bind fun self2 =>
      .done (true, self2)

/-- Calling `add` on each nonce of a list in turn; the result is the final cache. -/
def oldNonces.addAll (fuel : Nat) (self : oldNonces) : List GoString → Run oldNonces
  | [] => .done self
  | n :: rest => (self.add fuel n).bind fun r => oldNonces.addAll fuel r.2 rest

/-! ## Package `strings` (the functions used, for one-byte separators) -/

/-- The byte of an ASCII character. -/
def byte (c : Char) : UInt8 := c.toNat.toUInt8

/-- `strings.Cut(s, sep)` for a one-byte separator: the text before the first
`sep`, the text after it, and whether `sep` occurs. -/
def cut (sep : UInt8) : GoString → GoString × GoString × Bool
  | [] => ([], [], false)
  | c :: rest =>
    if c = sep then ([], rest, true)
    else
      let r := cut sep rest
      (c :: r.1, r.2.1, r.2.2)

/-- `strings.Split(s, sep)` for a one-byte separator. -/
def split (sep : UInt8) : GoString → List GoString
  | [] => [[]]
  | c :: rest =>
    if c = sep then [] :: split sep rest
    else
      match split sep rest with
      | [] => [[c]]
      | h :: t => (c :: h) :: t

/-- `strings.SplitN(s, sep, 2)` for a one-byte separator: one element when `sep`
does not occur, else the text before the first `sep` and the text after it. -/
def splitN2 (sep : UInt8) (s : GoString) : List GoString :=
  let r := cut sep s
  if r.2.2 then [r.1, r.2.1] else [s]

/-- `strings.HasPrefix`. -/
def startsWith (s p : GoString) : Bool := p.isPrefixOf s

/-- `strings.HasSuffix`. -/
def endsWith (s p : GoString) : Bool := p.isSuffixOf s

/-- `strings.Index(s, sub)`: the position of the first occurrence, if any. -/
def indexOf (sub : GoString) : GoString → Option Nat
  | [] => if sub = [] then some 0 else none
  | c :: rest =>
    if sub.isPrefixOf (c :: rest) then some 0
    else (indexOf sub rest).map (· + 1)

/-- `strings.LastIndex(s, sep)` for a one-byte separator. -/
def lastIndexOf (sep : UInt8) : GoString → Option Nat
  | [] => none
  | c :: rest =>
    match lastIndexOf sep rest with
    | some i => some (i + 1)
    | none => if c = sep then some 0 else none

/-- `strings.ToLower` on ASCII letters. -/
def toLower (s : GoString) : GoString :=
  s.map fun c => if byte 'A' ≤ c ∧ c ≤ byte 'Z' then c + 32 else c

/-- Byte-wise lexicographic order of strings (Go's `<` on strings). -/
def strLt : GoString → GoString → Bool
  | [], [] => false
  | [], _ :: _ => true
  | _ :: _, [] => false
  | a :: s, b :: t => if a < b then true else if b < a then false else strLt s t

/-! ## Package `net/url` (the functions used)

`Values`, `QueryEscape`, `QueryUnescape`, `ParseQuery`, `Values.Encode`,
`Userinfo.String`, `Parse` and `URL.Query`, after the library's source. Of the
fields of `url.URL` the embedding keeps those the package reads and `Opaque`;
`ForceQuery`, `OmitHost`, `RawPath` and `RawFragment`, which `Parse` also sets,
are hints for `URL.String` only. -/

/-- Go `error` values, by origin. -/
inductive Error where
  /-- `http.Client.Do` or `xml.Decoder.Decode` failed in `getEndpoint`. -/
  | discovery
  /-- `url.Parse` failed. -/
  | parse
  /-- `http.Client.Get` or `ioutil.ReadAll` failed in `VerifyAuth`. -/
  | transport
  /-- `fmt.Errorf("Unknown namespace: %v", v)`. -/
  | unknownNamespace (v : GoString)
  deriving DecidableEq, Repr

/-- `type encoding int` of `net/url`. -/
inductive encoding where
  | encodePath
  | encodePathSegment
  | encodeHost
  | encodeZone
  | encodeUserPassword
  | encodeQueryComponent
  | encodeFragment
  deriving DecidableEq, Repr

/-- ASCII letter or digit. -/
def isAlnum (c : UInt8) : Bool :=
  (byte 'a' ≤ c && c ≤ byte 'z') || (byte 'A' ≤ c && c ≤ byte 'Z') ||
    (byte '0' ≤ c && c ≤ byte '9')

/-- `func shouldEscape(c byte, mode encoding) bool`. -/
def shouldEscape (c : UInt8) (mode : encoding) : Bool :=
  if isAlnum c then false
  else if (mode = .encodeHost ∨ mode = .encodeZone) ∧ c ∈ str "!$&'()*+,;=:[]<>\"" then false
  else if c ∈ str "-_.~" then false
  else if c ∈ str "$&+,/:;=?@" ∧ mode = .encodePath then c = byte '?'
  else if c ∈ str "$&+,/:;=?@" ∧ mode = .encodePathSegment then c ∈ str "/;,?"
  else if c ∈ str "$&+,/:;=?@" ∧ mode = .encodeUserPassword then c ∈ str "@/?:"
  else if c ∈ str "$&+,/:;=?@" ∧ mode = .encodeQueryComponent then true
  else if c ∈ str "$&+,/:;=?@" ∧ mode = .encodeFragment then false
  else if mode = .encodeFragment ∧ c ∈ str "!()*" then false
  else true

/-- `func ishex(c byte) bool`. -/
def ishex (c : UInt8) : Bool :=
  (byte '0' ≤ c && c ≤ byte '9') || (byte 'a' ≤ c && c ≤ byte 'f') ||
    (byte 'A' ≤ c && c ≤ byte 'F')

/-- `func unhex(c byte) byte`. -/
def unhex (c : UInt8) : UInt8 :=
  if byte '0' ≤ c ∧ c ≤ byte '9' then c - byte '0'
  else if byte 'a' ≤ c ∧ c ≤ byte 'f' then c - byte 'a' + 10
  else if byte 'A' ≤ c ∧ c ≤ byte 'F' then c - byte 'A' + 10
  else 0

/-- `upperhex[n]` for `const upperhex = "0123456789ABCDEF"`. -/
def upperhex (n : UInt8) : UInt8 := (str "0123456789ABCDEF").getD n.toNat 0

/-- `func escape(s string, mode encoding) string`. -/
def escape (mode : encoding) : GoString → GoString
  | [] => []
  | c :: rest =>
    if c = byte ' ' ∧ mode = .encodeQueryComponent then byte '+' :: escape mode rest
    else if shouldEscape c mode then
      byte '%' :: upperhex (c >>> 4) :: upperhex (c &&& 15) :: escape mode rest
    else c :: escape mode rest

/-- `func unescape(s string, mode encoding) (string, error)`. -/
def unescape (mode : encoding) : GoString → Except Error GoString
  | [] => .ok []
  | c :: rest =>
    if c = byte '%' then
      match rest with
      | a :: b :: rest2 =>
        if ¬ (ishex a ∧ ishex b) then .error .parse
        else if mode = .encodeHost ∧ unhex a < 8 ∧ [c, a, b] ≠ str "%25" then .error .parse
        else if mode = .encodeZone ∧ [c, a, b] ≠ str "%25" ∧
            (unhex a <<< 4 ||| unhex b) ≠ byte ' ' ∧
            shouldEscape (unhex a <<< 4 ||| unhex b) .encodeHost then .error .parse
        else
          match unescape mode rest2 with
          | .ok t => .ok ((unhex a <<< 4 ||| unhex b) :: t)
          | .error e => .error e
      | _ => .error .parse
    else if (mode = .encodeHost ∨ mode = .encodeZone) ∧ c < 0x80 ∧
        shouldEscape c .encodeHost then .error .parse
    else
      match unescape mode rest with
      | .ok t => .ok ((if c = byte '+' ∧ mode = .encodeQueryComponent then byte ' ' else c) :: t)
      | .error e => .error e

/-- `func QueryEscape(s string) string`. -/
def QueryEscape (s : GoString) : GoString := escape .encodeQueryComponent s

/-- `func QueryUnescape(s string) (string, error)`. -/
def QueryUnescape (s : GoString) : Except Error GoString := unescape .encodeQueryComponent s

/-- `type Values map[string][]string`, as an association list with distinct keys. -/
abbrev Values := List (GoString × List GoString)

/-- Lookup `v[key]` (the nil slice when the key is missing). -/
def Values.lookup (v : Values) (key : GoString) : List GoString :=
  match v with
  | [] => []
  | (k, vs) :: rest => if k = key then vs else Values.lookup rest key

/-- `func (v Values) Get(key string) string`. -/
def Values.Get (v : Values) (key : GoString) : GoString :=
  match Values.lookup v key with
  | [] => []
  | x :: _ => x

/-- `func (v Values) Add(key, value string)`: `v[key] = append(v[key], value)`. -/
def Values.Add (v : Values) (key value : GoString) : Values :=
  match v with
  | [] => [(key, [value])]
  | (k, vs) :: rest =>
    if k = key then (k, vs ++ [value]) :: rest else (k, vs) :: Values.Add rest key value

/-- `func (v Values) Set(key, value string)`: `v[key] = []string{value}`. -/
def Values.Set (v : Values) (key value : GoString) : Values :=
  match v with
  | [] => [(key, [value])]
  | (k, vs) :: rest =>
    if k = key then (k, [value]) :: rest else (k, vs) :: Values.Set rest key value

/-- Insertion of an entry into a list of entries sorted by key. -/
def insertByKey (e : GoString × List GoString) : Values → Values
  | [] => [e]
  | x :: rest => if strLt x.1 e.1 then x :: insertByKey e rest else e :: x :: rest

/-- The entries sorted by key (`slices.Sort(keys)`). -/
def sortByKey : Values → Values
  | [] => []
  | e :: rest => insertByKey e (sortByKey rest)

/-- The pairs `key=value` of `Values.Encode`, in order. -/
def encodePairs : Values → List GoString
  | [] => []
  | (k, vs) :: rest =>
    vs.map (fun v => QueryEscape k ++ [byte '='] ++ QueryEscape v) ++ encodePairs rest

/-- `strings.Join(parts, "&")`. -/
def joinAmp : List GoString → GoString
  | [] => []
  | [p] => p
  | p :: q :: rest => p ++ [byte '&'] ++ joinAmp (q :: rest)

/-- `func (v Values) Encode() string`: the pairs `key=value`, escaped, by sorted
key, joined with `&`. -/
def Values.Encode (v : Values) : GoString :=
  joinAmp (encodePairs (sortByKey v))

/-- The loop of `func parseQuery(m Values, query string) (err error)` over the
`&`-separated pieces of the query; the error is dropped, as `URL.Query` does. -/
def parseQueryPieces (m : Values) : List GoString → Values
  | [] => m
  | piece :: rest =>
    if byte ';' ∈ piece then parseQueryPieces m rest
    else if piece = [] then parseQueryPieces m rest
    else
      let kv := cut (byte '=') piece
      match QueryUnescape kv.1 with
      | .error _ => parseQueryPieces m rest
      | .ok key =>
        match QueryUnescape kv.2.1 with
        | .error _ => parseQueryPieces m rest
        | .ok value => parseQueryPieces (Values.Add m key value) rest

/-- `const defaultMaxParams = 10000`: the largest number of `&`-separated pieces
that `parseQuery` accepts (the `GODEBUG` setting `urlmaxqueryparams` being unset). -/
def defaultMaxParams : Nat := 10000

/-- `func ParseQuery(query string) (Values, error)`, without the error.
`parseQuery` first counts the pieces, `strings.Count(query, "&") + 1`; a query of
more than `defaultMaxParams` pieces is refused before any piece is read, and the
map stays empty. Otherwise the pieces are read in order. -/
def ParseQuery (query : GoString) : Values :=
  if defaultMaxParams < query.count (byte '&') + 1 then []
  else if query = [] then [] else parseQueryPieces [] (split (byte '&') query)

/-- `type Userinfo struct`. -/
structure Userinfo where
  username : GoString
  password : GoString
  passwordSet : Bool
  deriving DecidableEq, Repr

/-- `func (u *Userinfo) String() string` for a non-nil receiver. -/
def Userinfo.String (u : Userinfo) : GoString :=
  if u.passwordSet then
    escape .encodeUserPassword u.username ++ [byte ':'] ++ escape .encodeUserPassword u.password
  else escape .encodeUserPassword u.username

/-- `type URL struct`. -/
structure URL where
  Scheme : GoString
  Opaque : GoString
  User : Option Userinfo
  Host : GoString
  Path : GoString
  RawQuery : GoString
  Fragment : GoString
  deriving DecidableEq, Repr

/-- `func (u *URL) Query() Values`. -/
def URL.Query (u : URL) : Values := ParseQuery u.RawQuery

/-- `func stringContainsCTLByte(s string) bool`. -/
def stringContainsCTLByte (s : GoString) : Bool :=
  s.any fun b => b < byte ' ' || b = 0x7f

/-- The loop of `func getScheme(rawURL string) (scheme, path string, err error)`
at position `i`, `acc` being the bytes read so far in reverse. -/
def getSchemeLoop (rawURL : GoString) (first : Bool) (acc : GoString) :
    GoString → Except Error (GoString × GoString)
  | [] => .ok ([], rawURL)
  | c :: rest =>
    if (byte 'a' ≤ c ∧ c ≤ byte 'z') ∨ (byte 'A' ≤ c ∧ c ≤ byte 'Z') then
      getSchemeLoop rawURL false (c :: acc) rest
    else if (byte '0' ≤ c ∧ c ≤ byte '9') ∨ c = byte '+' ∨ c = byte '-' ∨ c = byte '.' then
      if first then .ok ([], rawURL) else getSchemeLoop rawURL false (c :: acc) rest
    else if c = byte ':' then
      if first then .error .parse else .ok (acc.reverse, rest)
    else .ok ([], rawURL)

/-- `func getScheme(rawURL string) (scheme, path string, err error)`. -/
def getScheme (rawURL : GoString) : Except Error (GoString × GoString) :=
  getSchemeLoop rawURL true [] rawURL

/-- `func validOptionalPort(port string) bool`. -/
def validOptionalPort (port : GoString) : Bool :=
  match port with
  | [] => true
  | c :: rest => c = byte ':' && rest.all fun b => byte '0' ≤ b && b ≤ byte '9'

/-- `func validUserinfo(s string) bool`. -/
def validUserinfo (s : GoString) : Bool :=
  s.all fun r => isAlnum r || r ∈ str "-._:~!$&'()*+,;=%@"

/-- `func parseIPv4Fields(in string, off, end int, fields []uint8) error` of
`net/netip` on the text `in[off:end]`: whether it returns nil. `first` says that
the byte read is the first one, `prevDot` that the byte before it is a dot;
`val` is the octet read so far, `pos` the number of octets that are complete and
`digLen` the number of digits of the current octet. -/
def parseIPv4Fields (first prevDot : Bool) (val pos digLen : Nat) : GoString → Bool
  | [] => decide (3 ≤ pos)
  | c :: rest =>
    if byte '0' ≤ c ∧ c ≤ byte '9' then
      if digLen = 1 ∧ val = 0 then false
      else if 255 < val * 10 + (c - byte '0').toNat then false
      else parseIPv4Fields false false (val * 10 + (c - byte '0').toNat) pos (digLen + 1) rest
    else if c = byte '.' then
      if first ∨ rest = [] ∨ prevDot then false
      else if pos = 3 then false
      else parseIPv4Fields false true 0 (pos + 1) 0 rest
    else false

/-- The end of `parseIPv6` of `net/netip`: the whole text must have been used;
an address of fewer than 16 bytes needs a `::` to expand, a full one must have
none. -/
def parseIPv6End (i : Nat) (ellipsis : Bool) (s : GoString) : Bool :=
  s = [] && (if i < 16 then ellipsis else !ellipsis)

/-- The loop `for i < 16` of `func parseIPv6(in string) (Addr, error)` of
`net/netip`: whether the function returns an address. `i` is the number of
bytes of the address that are filled, `ellipsis` says whether a `::` has been
met, `s` is the text still to read; each round fills two bytes, so nine rounds
of `fuel` are enough. -/
def parseIPv6Loop : Nat → Nat → Bool → GoString → Bool
  | 0, _, _, _ => false
  | fuel + 1, i, ellipsis, s =>
    if 16 ≤ i then parseIPv6End i ellipsis s
    else
      let off := (s.takeWhile ishex).length
      if 4 < off then false
      else if off = 0 then false
      else
        match s.drop off with
        | [] => parseIPv6End (i + 2) ellipsis []
        | c :: rest =>
          if c = byte '.' then
            if ¬ ellipsis ∧ i ≠ 12 then false
            else if 16 < i + 4 then false
            else if ¬ parseIPv4Fields true false 0 0 0 s then false
            else parseIPv6End (i + 4) ellipsis []
          else if c ≠ byte ':' then false
          else
            match rest with
            | [] => false
            | d :: rest2 =>
              if d = byte ':' then
                if ellipsis then false
                else if rest2 = [] then parseIPv6End (i + 2) true []
                else parseIPv6Loop fuel (i + 2) true rest2
              else parseIPv6Loop fuel (i + 2) ellipsis (d :: rest2)

/-- `func parseIPv6(in string) (Addr, error)` of `net/netip`: whether it returns
an address. The zone after the first `%` must not be empty; a leading `::` is
read before the loop. -/
def parseIPv6 (text : GoString) : Bool :=
  let z := cut (byte '%') text
  if z.2.2 ∧ z.2.1 = [] then false
  else if startsWith z.1 (str "::") then
    if z.1.drop 2 = [] then true else parseIPv6Loop 9 0 true (z.1.drop 2)
  else parseIPv6Loop 9 0 false z.1

/-- Whether `netip.ParseAddr(s)` returns an address that is not `Is4`, the test
that `parseHost` makes on the text between the brackets. `ParseAddr` goes by the
first `.`, `:` or `%` of `s`: a `.` leads to `parseIPv4`, whose addresses are
`Is4`, a `:` to `parseIPv6`, a `%` or none of the three to an error. -/
def isIPv6Literal (s : GoString) : Bool :=
  match s.find? (fun c => c = byte '.' || c = byte ':' || c = byte '%') with
  | some c => c = byte ':' && parseIPv6 s
  | none => false

/-- `func parseHost(host string) (string, error)`. A host with a `[` is an IP
literal: after the last `]` only a port may follow, and the text between the last
`[` and the last `]`, unescaped, must be an IPv6 address (with or without zone).
Any other host may hold a colon only in front of its port (the `GODEBUG` setting
`urlstrictcolons` being unset). -/
def parseHost (host : GoString) : Except Error GoString :=
  match lastIndexOf (byte '[') host with
  | some openBracketIdx =>
    match lastIndexOf (byte ']') host with
    | none => .error .parse
    | some closeBracketIdx =>
      let colonPort := host.drop (closeBracketIdx + 1)
      if ¬ validOptionalPort colonPort then .error .parse
      else
        match unescape .encodeHost colonPort with
        | .error e => .error e
        | .ok unescapedColonPort =>
          let hostname := (host.take closeBracketIdx).drop (openBracketIdx + 1)
          let unescaped : Except Error GoString :=
            match indexOf (str "%25") hostname with
            | some zoneIdx =>
              match unescape .encodeHost (hostname.take zoneIdx),
                  unescape .encodeZone (hostname.drop zoneIdx) with
              | .ok hostPart, .ok zonePart => .ok (hostPart ++ zonePart)
              | .error e, _ => .error e
              | _, .error e => .error e
            | none => unescape .encodeHost hostname
          match unescaped with
          | .error e => .error e
          | .ok unescapedHostname =>
            if ¬ isIPv6Literal unescapedHostname then .error .parse
            else .ok (str "[" ++ unescapedHostname ++ str "]" ++ unescapedColonPort)
  | none =>
    match indexOf (str ":") host with
    | some i =>
      if ¬ validOptionalPort (host.drop i) then .error .parse
      else unescape .encodeHost host
    | none => unescape .encodeHost host

/-- `func parseAuthority(authority string) (user *Userinfo, host string, err error)`. -/
def parseAuthority (authority : GoString) : Except Error (Option Userinfo × GoString) :=
  match lastIndexOf (byte '@') authority with
  | none =>
    match parseHost authority with
    | .error e => .error e
    | .ok host => .ok (none, host)
  | some i =>
    match parseHost (authority.drop (i + 1)) with
    | .error e => .error e
    | .ok host =>
      let userinfo := authority.take i
      if ¬ validUserinfo userinfo then .error .parse
      else if byte ':' ∉ userinfo then
        match unescape .encodeUserPassword userinfo with
        | .error e => .error e
        | .ok u => .ok (some { username := u, password := [], passwordSet := false }, host)
      else
        let up := cut (byte ':') userinfo
        match unescape .encodeUserPassword up.1, unescape .encodeUserPassword up.2.1 with
        | .ok u, .ok p => .ok (some { username := u, password := p, passwordSet := true }, host)
        | _, _ => .error .parse

/-- The split of `parse` into the text before the query and the raw query: a
lone trailing `?` is dropped (and sets `ForceQuery`), else the text is cut at the
first `?`. -/
def splitQuery (rest : GoString) : GoString × GoString :=
  if endsWith rest (str "?") ∧ rest.count (byte '?') = 1 then (rest.dropLast, [])
  else ((cut (byte '?') rest).1, (cut (byte '?') rest).2.1)

/-- `func parse(rawURL string, viaRequest bool) (*URL, error)` with
`viaRequest = false`: the URL without its fragment. -/
def parseNoFragment (rawURL : GoString) : Except Error URL :=
  if stringContainsCTLByte rawURL then .error .parse
  else if rawURL = str "*" then
    .ok { Scheme := [], Opaque := [], User := none, Host := [], Path := str "*",
          RawQuery := [], Fragment := [] }
  else
    match getScheme rawURL with
    | .error e => .error e
    | .ok (scheme0, rest0) =>
      let scheme := toLower scheme0
      let rest := (splitQuery rest0).1
      let rawQuery := (splitQuery rest0).2
      if ¬ startsWith rest (str "/") ∧ scheme ≠ [] then
        .ok { Scheme := scheme, Opaque := rest, User := none, Host := [], Path := [],
              RawQuery := rawQuery, Fragment := [] }
      else if ¬ startsWith rest (str "/") ∧ byte ':' ∈ (cut (byte '/') rest).1 then
        .error .parse
      else if (scheme ≠ [] ∨ ¬ startsWith rest (str "///")) ∧ startsWith rest (str "//") then
        let a := cut (byte '/') (rest.drop 2)
        let authority := a.1
        let path := if a.2.2 then byte '/' :: a.2.1 else []
        match parseAuthority authority with
        | .error e => .error e
        | .ok (user, host) =>
          match unescape .encodePath path with
          | .error e => .error e
          | .ok p =>
            .ok { Scheme := scheme, Opaque := [], User := user, Host := host, Path := p,
                  RawQuery := rawQuery, Fragment := [] }
      else
        match unescape .encodePath rest with
        | .error e => .error e
        | .ok p =>
          .ok { Scheme := scheme, Opaque := [], User := none, Host := [], Path := p,
                RawQuery := rawQuery, Fragment := [] }

/-- `func Parse(rawURL string) (*URL, error)`. -/
def Parse (rawURL : GoString) : Except Error URL :=
  let uf := cut (byte '#') rawURL
  match parseNoFragment uf.1 with
  | .error e => .error e
  | .ok u =>
    if uf.2.1 = [] then .ok u
    else
      match unescape .encodeFragment uf.2.1 with
      | .error e => .error e
      | .ok f => .ok { u with Fragment := f }


/-! ## The package state and the network -/

/-- `const discovery = "https://www.google.com/accounts/o8/id"`. -/
def discovery : GoString := str "https://www.google.com/accounts/o8/id"

/-- The package-level variables `var nonces = newOldNonces()` and
`var endpoint *url.URL`, together with a count of the discovery requests sent
so far (`fetches`, a ghost field that only `getEndpoint` advances). -/
structure World where
  endpoint : Option URL
  nonces : oldNonces
  fetches : Nat
  deriving DecidableEq, Repr

/-- The package state when the program starts. -/
def World.initial : World :=
  { endpoint := none, nonces := newOldNonces, fetches := 0 }

/-- The network, as an oracle. `discover k` is the outcome of the `k`-th
discovery request (numbered from 0): an error of `http.Client.Do` or of the XML
decoder, or the text of the element `XRD>Service>URI`. `get u` is the outcome
of `http.Client.Get(u.String())` followed by `ioutil.ReadAll`: an error or the
response body. -/
structure Net where
  discover : Nat → Except Error GoString
  get : URL → Except Error GoString

/-! ## `join`, `getEndpoint`, `GetAuthURL`, `VerifyAuth` -/

/-- The string that `join` builds in `buf` (lines 96 to 112). -/
def joinString (u : URL) (q : Values) : GoString :=
  u.Scheme ++ str "://" ++
    (match u.User with
      | some ui => ui.String ++ str "@"
      | none => []) ++
    u.Host ++
    (if u.Path ≠ [] then u.Path else []) ++
    (if u.Fragment ≠ [] then str "#" ++ u.Fragment else []) ++
    (if u.RawQuery = [] then str "?" ++ q.Encode
      else str "?" ++ u.RawQuery ++ str "&" ++ q.Encode)

/-- `func join(u *url.URL, q url.Values) (result *url.URL, err error)`. -/
def join (u : URL) (q : Values) : Except Error URL :=
  Parse (joinString u q)

/-- `func getEndpoint() (result *url.URL, err error)`. The result is the pair
`(result, err)` and the package state after the call. `http.NewRequest` does not
fail on the constant `discovery`. The body never assigns to `endpoint`; when
`endpoint` is not nil the named results keep their zero values. -/
def getEndpoint (net : Net) (w : World) : (Option URL × Option Error) × World :=
  match w.endpoint with
  | none =>
    let w1 := { w with fetches := w.fetches + 1 }
    match net.discover w.fetches with
    | .error e => ((none, some e), w1)
    | .ok xrd =>
      match Parse xrd with
      | .error e => ((none, some e), w1)
      | .ok u => ((some u, none), w1)
  | some _ => ((none, none), w)

/-- The nine `query.Add` calls of `GetAuthURL` (lines 207 to 215); `returnTo` is
the text `returnTo.String()`. -/
def authQuery (query : Values) (host returnTo : GoString) : Values :=
  let q1 := query.Add (str "openid.mode") (str "checkid_setup")
  let q2 := q1.Add (str "openid.ns") (str "http://specs.openid.net/auth/2.0")
  let q3 := q2.Add (str "openid.return_to")
    (str "http://" ++ host ++ str "/openid?openid.secondary_return_to=" ++ returnTo)
  let q4 := q3.Add (str "openid.claimed_id")
    (str "http://specs.openid.net/auth/2.0/identifier_select")
  let q5 := q4.Add (str "openid.identity")
    (str "http://specs.openid.net/auth/2.0/identifier_select")
  let q6 := q5.Add (str "openid.ns.ax") (str "http://openid.net/srv/ax/1.0")
  let q7 := q6.Add (str "openid.ax.mode") (str "fetch_request")
  let q8 := q7.Add (str "openid.ax.required") (str "email")
  q8.Add (str "openid.ax.type.email") (str "http://axschema.org/contact/email")

/-- `func GetAuthURL(r *http.Request, returnTo *url.URL) (result *url.URL, err error)`.
`host` is `r.Host` and `returnTo` is the text `returnTo.String()`, the only uses
of the two arguments. A nil `endp` makes `endp.Query()` dereference nil. -/
def GetAuthURL (net : Net) (w : World) (host returnTo : GoString) :
    Run (Except Error URL × World) :=
  match getEndpoint net w with
  | ((_, some err), w1) => .done (.error err, w1)
  | ((none, none), _) => .crash
  | ((some endp, none), w1) =>
    .done (join endp (authQuery endp.Query host returnTo), w1)

/-- The named results `(returnTo, result, ok, err)` of `VerifyAuth`. -/
structure VerifyResult where
  returnTo : Option URL
  result : GoString
  ok : Bool
  err : Option Error
  deriving DecidableEq, Repr

/-- The variables that the loop over `r.Form` of `VerifyAuth` updates. -/
structure FormScan where
  returnTo : Option URL
  result : GoString
  nonce : GoString
  query : Values
  deriving DecidableEq, Repr

/-- The inner loop `for _, value := range values` of `VerifyAuth` (lines 150 to
163) for one key; `.error` is the early `return` on a `url.Parse` error, with
the variables at that point. -/
def scanValues (key : GoString) : FormScan → List GoString → Except FormScan FormScan
  | st, [] => .ok st
  | st, value :: rest =>
    let st1 := if key = str "openid.ext1.value.email" then { st with result := value } else st
    let parsed : Except FormScan FormScan :=
      if key = str "openid.secondary_return_to" then
        match Parse value with
        | .error _ => .error { st1 with returnTo := none }
        | .ok u => .ok { st1 with returnTo := some u }
      else .ok st1
    match parsed with
    | .error st2 => .error st2
    | .ok st2 =>
      let st3 := if key = str "openid.response_nonce" then { st2 with nonce := value } else st2
      scanValues key { st3 with query := st3.query.Add key value } rest

/-- The loop `for key, values := range r.Form` of `VerifyAuth` (lines 149 to
164), the entries of the form being visited in the order of the list. -/
def scanForm : FormScan → List (GoString × List GoString) → Except FormScan FormScan
  | st, [] => .ok st
  | st, (key, values) :: rest =>
    match scanValues key st values with
    | .error st1 => .error st1
    | .ok st1 => scanForm st1 rest

/-- The state of the loop over the lines of the provider's response. -/
structure LineScan where
  ok : Bool
  nonces : oldNonces
  deriving DecidableEq, Repr

/-- The loop over the lines of the response body in `VerifyAuth` (lines 178 to
193). The result is the state at the end of the loop and the error of the early
`return`, if any. `kv[1]` on a `kv` of length one is an index out of range. -/
def scanLines (fuel : Nat) (nonce : GoString) :
    LineScan → List GoString → Run (LineScan × Option Error)
  | st, [] => .done (st, none)
  | st, line :: rest =>
    let kv := splitN2 (byte ':') line
    match kv[0]? with
    | none => .crash
    | some k =>
      if k = str "is_valid" then
        match kv[1]? with
        | none => .crash
        | some v =>
          if v = str "true" then
            (st.nonces.add fuel nonce).bind fun r =>
              scanLines fuel nonce { ok := if r.1 then true else st.ok, nonces := r.2 } rest
          else scanLines fuel nonce st rest
      else if k = str "ns" then
        match kv[1]? with
        | none => .crash
        | some v =>
          if v ≠ str "http://specs.openid.net/auth/2.0" then
            .done (st, some (.unknownNamespace v))
          else scanLines fuel nonce st rest
      else scanLines fuel nonce st rest

/-- `func VerifyAuth(r *http.Request) (returnTo *url.URL, result string, ok bool, err error)`.
`form` is `r.Form` after `r.ParseForm()`, its entries in the order in which the
`range` visits them; `fuel` bounds the eviction loop of each `nonces.add`. The
result is the named results and the package state after the call. -/
def VerifyAuth (fuel : Nat) (net : Net) (w : World) (form : List (GoString × List GoString)) :
    Run (VerifyResult × World) :=
  match getEndpoint net w with
  | ((_, some err), w1) =>
    .done ({ returnTo := none, result := [], ok := false, err := some err }, w1)
  | ((none, none), _) => .crash
  | ((some endp, none), w1) =>
    match scanForm { returnTo := none, result := [], nonce := [], query := endp.Query } form with
    | .error st =>
      .done ({ returnTo := st.returnTo, result := st.result, ok := false, err := some .parse }, w1)
    | .ok st =>
      match join endp (st.query.Set (str "openid.mode") (str "check_authentication")) with
      | .error e =>
        .done ({ returnTo := st.returnTo, result := st.result, ok := false, err := some e }, w1)
      | .ok joined =>
        match net.get joined with
        | .error e =>
          .done ({ returnTo := st.returnTo, result := st.result, ok := false, err := some e }, w1)
        | .ok bod =>
          (scanLines fuel st.nonce { ok := false, nonces := w1.nonces }
              (split (byte '\n') bod)).bind fun r =>
            .done ({ returnTo := st.returnTo, result := st.result, ok := r.1.ok, err := r.2 },
              { w1 with nonces := r.1.nonces })

/-! ## Definitions used in the statements -/

/-- The nodes listed in `m` (newest first, each with its key and address) form a
doubly linked sequence in `heap`, the node before the first one being `prev`. -/
def Linked (heap : List oldNonce) : Option Nat → List (GoString × Nat) → Prop
  | _, [] => True
  | prev, (k, p) :: rest =>
    heap[p]? = some { nonce := k, next := rest.head?.map Prod.snd, prev := prev } ∧
      Linked heap (some p) rest

/-- The shape of a well-formed cache: the map lists the nodes of the linked
sequence from `nonceListStart` (newest) to `nonceListEnd` (oldest), and keys and
addresses are pairwise distinct. -/
structure oldNonces.Shape (s : oldNonces) : Prop where
  keysNodup : (s.nonceMap.map Prod.fst).Nodup
  ptrsNodup : (s.nonceMap.map Prod.snd).Nodup
  linked : Linked s.heap none s.nonceMap
  start : s.nonceListStart = s.nonceMap.head?.map Prod.snd
  last : s.nonceListEnd = s.nonceMap.getLast?.map Prod.snd

/-- The representation invariant: a well-formed cache whose size is within its
capacity, the capacity being at least one. -/
structure oldNonces.Inv (s : oldNonces) : Prop where
  shape : s.Shape
  bound : s.size ≤ s.max
  capacity : 1 ≤ s.max

/-- The caches that `add` calls which return lead to from the empty cache of
capacity `c`. -/
inductive Reachable (c : Int) : oldNonces → Prop where
  | init : Reachable c (newOldNoncesWithMax c)
  | step {s s1 : oldNonces} {fuel : Nat} {n : GoString} {b : Bool} :
      Reachable c s → s.add fuel n = .done (b, s1) → Reachable c s1

/-- The effect of `add` on the key list of a well-formed cache of capacity `c`:
a key that is present changes nothing, a new key becomes the newest and the
oldest key leaves when the capacity is exceeded. -/
def addKeys (c : Int) (keys : List GoString) (n : GoString) : List GoString :=
  if n ∈ keys then keys else (n :: keys).take c.toNat

/-- A sequence of nonces without the ones that are already keys of the cache
when their turn to be added comes. -/
def oldNonces.dropPresent (fuel : Nat) (self : oldNonces) : List GoString → List GoString
  | [] => []
  | n :: rest =>
    if n ∈ self.keys then oldNonces.dropPresent fuel self rest
    else
      match self.add fuel n with
      | .done r => n :: oldNonces.dropPresent fuel r.2 rest
      | _ => n :: rest

/-- The namespace that an `ns` line of the provider's response must carry. -/
def openidNS : GoString := str "http://specs.openid.net/auth/2.0"

/-- A line of the response on which `kv[1]` is read although `kv` has length
one: the key `is_valid` or `ns` with no colon after it. -/
def bareKeyLine (line : GoString) : Prop :=
  line = str "is_valid" ∨ line = str "ns"

instance (line : GoString) : Decidable (bareKeyLine line) := by
  unfold bareKeyLine; infer_instance

/-- The text that `join` writes before the query section when the base URL has
no fragment: scheme, `://`, user info, host and path. -/
def joinPrefix (u : URL) : GoString :=
  u.Scheme ++ str "://" ++
    (match u.User with
      | some ui => ui.String ++ str "@"
      | none => []) ++
    u.Host ++ u.Path

/-- The query section that `join` writes: the raw query of the base, if any,
then `&`, then the encoded parameters. -/
def joinQuery (u : URL) (q : Values) : GoString :=
  if u.RawQuery = [] then q.Encode else u.RawQuery ++ str "&" ++ q.Encode

/-- Reading the caller's return URL back from the URL that `GetAuthURL` returned:
the parameter `openid.return_to` of `u` is parsed as a URL and the parameter
`openid.secondary_return_to` of its query is taken (as `VerifyAuth` does on the
callback). -/
def secondaryReturnTo (u : URL) : Except Error GoString :=
  match Parse (u.Query.Get (str "openid.return_to")) with
  | .error e => .error e
  | .ok v => .ok (v.Query.Get (str "openid.secondary_return_to"))

/-- The caller's return URL as it comes back after `GetAuthURL host returnTo`. -/
def returnToRoundTrip (net : Net) (w : World) (host returnTo : GoString) :
    Run (Except Error GoString) :=
  (GetAuthURL net w host returnTo).bind fun r =>
    match r.1 with
    | .error e => .done (.error e)
    | .ok u => .done (secondaryReturnTo u)

/-- The addresses met when the `next` pointers are followed from `p` until nil,
as the loop `for n := self.nonceListStart; n != nil; n = n.next` of `String()`
does, within `fuel` steps; `none` when a pointer is dangling or the steps are
used up. -/
def walkNext (heap : List oldNonce) : Nat → Option Nat → Option (List Nat)
  | _, none => some []
  | 0, some _ => none
  | fuel + 1, some p =>
    match heap[p]? with
    | none => none
    | some node => (walkNext heap fuel node.next).map (p :: ·)

/-- The linked sequence of the cache from `nonceListStart`, as a list of
addresses; a sequence without a cycle has at most as many nodes as the heap. -/
def oldNonces.sequence (self : oldNonces) : Option (List Nat) :=
  walkNext self.heap self.heap.length self.nonceListStart

/-- The nonce of the node at address `p` (the empty string for a dangling
address). -/
def oldNonces.nonceAt (self : oldNonces) (p : Nat) : GoString :=
  match self.heap[p]? with
  | some node => node.nonce
  | none => []

/-- A line `ns:v` of the response whose value `v` is not the namespace. -/
def nsMismatchLine (line : GoString) : Prop :=
  (str "ns:").isPrefixOf line = true ∧ line.drop 3 ≠ openidNS

instance (line : GoString) : Decidable (nsMismatchLine line) := by
  unfold nsMismatchLine; infer_instance

/-- The values that a form lists for `key`, in the order of the form. -/
def formValues (form : List (GoString × List GoString)) (key : GoString) : List GoString :=
  match form with
  | [] => []
  | (k, vs) :: rest => if k = key then vs ++ formValues rest key else formValues rest key

/-- The parameter set that `VerifyAuth` passes to `join` (line 166) when the scan
of the form has ended in `st`. -/
def forwardedQuery (st : FormScan) : Values :=
  st.query.Set (str "openid.mode") (str "check_authentication")

/-- What `parseQuery` makes of one `&`-separated piece of a query: the pair
`(key, value)` that it adds, or nothing when it skips the piece (a piece with a
semicolon, an empty piece, a bad escape). -/
def parsePiece (piece : GoString) : Option (GoString × GoString) :=
  if byte ';' ∈ piece then none
  else if piece = [] then none
  else
    match QueryUnescape (cut (byte '=') piece).1, QueryUnescape (cut (byte '=') piece).2.1 with
    | .ok key, .ok value => some (key, value)
    | _, _ => none

/-- The pairs `(key, value)` that `ParseQuery` reads from a query, in order. -/
def queryPairs (query : GoString) : List (GoString × GoString) :=
  (split (byte '&') query).filterMap parsePiece

/-- The values that a list of pairs gives for `key`, in order. -/
def valuesOf (pairs : List (GoString × GoString)) (key : GoString) : List GoString :=
  (pairs.filter (fun kv => kv.1 = key)).map Prod.snd

/-- The pairs `(key, value)` of a parameter set, entry by entry. -/
def flatPairs (v : Values) : List (GoString × GoString) :=
  v.flatMap fun e => e.2.map fun x => (e.1, x)

/-- The nine parameters that `GetAuthURL` adds (lines 207 to 215), in order;
`returnTo` is the text `returnTo.String()`. -/
def authAdded (host returnTo : GoString) : List (GoString × GoString) :=
  [(str "openid.mode", str "checkid_setup"),
   (str "openid.ns", str "http://specs.openid.net/auth/2.0"),
   (str "openid.return_to",
     str "http://" ++ host ++ str "/openid?openid.secondary_return_to=" ++ returnTo),
   (str "openid.claimed_id", str "http://specs.openid.net/auth/2.0/identifier_select"),
   (str "openid.identity", str "http://specs.openid.net/auth/2.0/identifier_select"),
   (str "openid.ns.ax", str "http://openid.net/srv/ax/1.0"),
   (str "openid.ax.mode", str "fetch_request"),
   (str "openid.ax.required", str "email"),
   (str "openid.ax.type.email", str "http://axschema.org/contact/email")]

/-- Adding one pair to a parameter set: `v.Add(key, value)`. -/
def addPair (m : Values) (kv : GoString × GoString) : Values :=
  m.Add kv.1 kv.2

/-- The values that the parsed query of the URL returned by `GetAuthURL` lists
for `key`. -/
def authURLValues (net : Net) (w : World) (host returnTo key : GoString) :
    Run (Except Error (List GoString)) :=
  (GetAuthURL net w host returnTo).bind fun r =>
    match r.1 with
    | .error e => .done (.error e)
    | .ok u => .done (.ok (u.Query.lookup key))

/-! ## Example inputs -/

/-- An example: the cache of capacity 1 after `add "a"` on the empty cache. -/
def cacheA : oldNonces :=
  { heap := [{ nonce := str "a", next := none, prev := none }]
    nonceMap := [(str "a", 0)]
    nonceListStart := some 0
    nonceListEnd := some 0
    max := 1 }

/-- A network whose discovery document names the endpoint `xrd` and whose
provider answers every direct verification request with `body`. -/
def exampleNet (xrd body : GoString) : Net :=
  { discover := fun _ => .ok xrd, get := fun _ => .ok body }

/-- The endpoint that the discovery document of the provider names. -/
def exampleEndpoint : GoString := str "https://www.google.com/accounts/o8/ud"

/-- A callback form that carries the response nonce `n1`. -/
def exampleForm : List (GoString × List GoString) :=
  [(str "openid.response_nonce", [str "n1"])]

/-- An example base URL, `http://h/p?a=1`. -/
def exampleBase : URL :=
  { Scheme := str "http", Opaque := [], User := none, Host := str "h", Path := str "/p",
    RawQuery := str "a=1", Fragment := [] }

/-- An example callback form with an `openid.mode` of its own. -/
def exampleCallback : List (GoString × List GoString) :=
  [(str "openid.mode", [str "id_res"]), (str "openid.sig", [str "x", str "y"])]

/-- The variables of `VerifyAuth` after the scan of `exampleCallback`, the
endpoint being `exampleBase`. -/
def exampleScan : FormScan :=
  { returnTo := none
    result := []
    nonce := []
    query := [(str "a", [str "1"]), (str "openid.mode", [str "id_res"]),
      (str "openid.sig", [str "x", str "y"])] }

/-- An example endpoint with a query of its own. -/
def exampleEndpointQ : GoString := str "https://www.google.com/accounts/o8/ud?a=1"

/-- The URL `exampleEndpointQ`, parsed. -/
def exampleEndpointURL : URL :=
  { Scheme := str "https", Opaque := [], User := none, Host := str "www.google.com",
    Path := str "/accounts/o8/ud", RawQuery := str "a=1", Fragment := [] }

/-- The URL that `GetAuthURL` returns for the endpoint `exampleEndpointQ`, the
request host `example.com` and the return URL `http://a/b`. -/
def exampleAuthURL : URL :=
  match GetAuthURL (exampleNet exampleEndpointQ []) World.initial (str "example.com")
      (str "http://a/b") with
  | .done (.ok u, _) => u
  | _ => exampleBase

/-! # Theorems -/

/-! ## Strings -/

theorem cut_eq (sep : UInt8) (s : GoString) :
    ((cut sep s).2.2 = true → s = (cut sep s).1 ++ sep :: (cut sep s).2.1) ∧
      ((cut sep s).2.2 = false → (cut sep s).1 = s) := by
  induction s with
  | nil => simp [cut]
  | cons c rest ih =>
    by_cases h : c = sep
    · simp [cut, h]
    · simp only [cut, h, if_false]
      exact ⟨fun hf => by rw [List.cons_append, ← ih.1 hf], fun hf => by rw [ih.2 hf]⟩

theorem splitN2_cases (sep : UInt8) (s : GoString) :
    splitN2 sep s = [s] ∨ ∃ a b, splitN2 sep s = [a, b] ∧ s = a ++ sep :: b := by
  unfold splitN2
  cases h : (cut sep s).2.2 with
  | false => left; simp [h]
  | true => right; exact ⟨_, _, by simp [h], (cut_eq sep s).1 h⟩

theorem cut_append_of_not_mem (sep : UInt8) (a b : GoString) (h : sep ∉ a) :
    cut sep (a ++ b) = (a ++ (cut sep b).1, (cut sep b).2.1, (cut sep b).2.2) := by
  induction a with
  | nil => simp
  | cons c rest ih =>
    have hc : c ≠ sep := fun e => h (by simp [e])
    have hr : sep ∉ rest := fun e => h (List.mem_cons_of_mem _ e)
    simp [cut, hc, ih hr]

theorem cut_of_not_mem (sep : UInt8) (s : GoString) (h : sep ∉ s) :
    cut sep s = (s, [], false) := by
  have := cut_append_of_not_mem sep s [] h
  simpa [cut] using this

theorem cut_at (sep : UInt8) (a b : GoString) (h : sep ∉ a) :
    cut sep (a ++ sep :: b) = (a, b, true) := by
  rw [cut_append_of_not_mem sep a _ h]
  simp [cut]

theorem cut_fst_not_mem (sep : UInt8) (s : GoString) : sep ∉ (cut sep s).1 := by
  induction s with
  | nil => simp [cut]
  | cons c rest ih =>
    by_cases h : c = sep
    · simp [cut, h]
    · simp only [cut, h, if_false, List.mem_cons, not_or]
      exact ⟨fun e => h e.symm, ih⟩

/-! ## The nonce cache -/

/-! ### Maps -/

theorem mapLookup_eq_none {m : List (GoString × Nat)} {k : GoString} :
    mapLookup m k = none ↔ k ∉ m.map Prod.fst := by
  induction m with
  | nil => simp [mapLookup]
  | cons e rest ih =>
    obtain ⟨k1, v⟩ := e
    by_cases h : k1 = k
    · simp [mapLookup, h]
    · simp [mapLookup, h, ih, Ne.symm h]

theorem mapLookup_isSome {m : List (GoString × Nat)} {k : GoString}
    (h : k ∈ m.map Prod.fst) : ∃ v, mapLookup m k = some v := by
  cases hl : mapLookup m k with
  | none => exact absurd h (mapLookup_eq_none.mp hl)
  | some v => exact ⟨v, rfl⟩

theorem mapInsert_fresh {m : List (GoString × Nat)} {k : GoString} (v : Nat)
    (h : k ∉ m.map Prod.fst) : mapInsert m k v = (k, v) :: m := by
  simp [mapInsert, mapLookup_eq_none.mpr h]

theorem mapDelete_last {m : List (GoString × Nat)} {e : GoString × Nat}
    (h : ((m ++ [e]).map Prod.fst).Nodup) : mapDelete (m ++ [e]) e.1 = m := by
  have hne : ∀ x ∈ m, x.1 ≠ e.1 := by
    intro x hx heq
    rw [List.map_append, List.nodup_append] at h
    exact h.2.2 (List.mem_map_of_mem Prod.fst hx) (by simp [heq])
  simp only [mapDelete, List.filter_append]
  rw [List.filter_eq_self.mpr (by simpa using hne)]
  simp


/-! ### The linked sequence -/

theorem Linked.frame {heap heap1 : List oldNonce} :
    ∀ {prev : Option Nat} {m : List (GoString × Nat)}, Linked heap prev m →
      (∀ e ∈ m, heap1[e.2]? = heap[e.2]?) → Linked heap1 prev m := by
  intro prev m
  induction m generalizing prev with
  | nil => intro _ _; trivial
  | cons e rest ih =>
    obtain ⟨k, p⟩ := e
    intro h hf
    refine ⟨?_, ih h.2 (fun e he => hf e (List.mem_cons_of_mem _ he))⟩
    rw [hf (k, p) (List.mem_cons_self _ _)]
    exact h.1

theorem Linked.lt_length {heap : List oldNonce} :
    ∀ {prev : Option Nat} {m : List (GoString × Nat)}, Linked heap prev m →
      ∀ e ∈ m, e.2 < heap.length := by
  intro prev m
  induction m generalizing prev with
  | nil => intro _ e he; cases he
  | cons e rest ih =>
    obtain ⟨k, p⟩ := e
    intro h e he
    rcases List.mem_cons.mp he with rfl | he
    · by_contra hlt
      have := h.1
      rw [List.getElem?_eq_none (by simpa using hlt)] at this
      cases this
    · exact ih h.2 e he

/-- The two oldest nodes of a linked sequence. -/
theorem Linked.tail_nodes {heap : List oldNonce} {x y : GoString × Nat} :
    ∀ {prev : Option Nat} (a : List (GoString × Nat)), Linked heap prev (a ++ [x, y]) →
      heap[y.2]? = some { nonce := y.1, next := none, prev := some x.2 } ∧
        ∃ px, heap[x.2]? = some { nonce := x.1, next := some y.2, prev := px } := by
  intro prev a
  induction a generalizing prev with
  | nil =>
    intro h
    obtain ⟨kx, px⟩ := x
    obtain ⟨ky, py⟩ := y
    exact ⟨h.2.1, prev, h.1⟩
  | cons e rest ih =>
    obtain ⟨k, p⟩ := e
    intro h
    exact ih h.2

/-- Unlinking the oldest node: the node before it gets `next = nil`. -/
theorem Linked.drop_last {heap : List oldNonce} {x y : GoString × Nat} {pn : oldNonce}
    (hx : heap[x.2]? = some pn) :
    ∀ {prev : Option Nat} (a : List (GoString × Nat)), Linked heap prev (a ++ [x, y]) →
      ((a ++ [x, y]).map Prod.snd).Nodup →
      Linked (heap.set x.2 { pn with next := none }) prev (a ++ [x]) := by
  have hlt : x.2 < heap.length := by
    by_contra hlt
    rw [List.getElem?_eq_none (by simpa using hlt)] at hx
    cases hx
  intro prev a
  induction a generalizing prev with
  | nil =>
    intro h _
    obtain ⟨kx, px⟩ := x
    obtain ⟨ky, py⟩ := y
    have h1 := h.1
    simp only at hx h1
    rw [hx] at h1
    cases h1
    refine ⟨?_, trivial⟩
    simp [List.getElem?_set_self, hlt]
  | cons e rest ih =>
    obtain ⟨k, p⟩ := e
    intro h hn
    have hn2 : ((rest ++ [x, y]).map Prod.snd).Nodup := by
      simp only [List.cons_append, List.map_cons, List.nodup_cons] at hn
      exact hn.2
    have hpx : p ≠ x.2 := by
      intro heq
      simp only [List.cons_append, List.map_cons, List.nodup_cons] at hn
      apply hn.1
      simp [heq]
    refine ⟨?_, ih h.2 hn2⟩
    rw [List.getElem?_set_ne (Ne.symm hpx)]
    have h1 := h.1
    cases rest <;> simpa using h1

/-! ### The eviction loop -/

theorem evict_noop (fuel : Nat) (s : oldNonces) (h : s.size ≤ s.max) :
    s.evict fuel = .done s := by
  cases fuel <;> simp [oldNonces.evict, not_lt.mpr h]

theorem exists_two_last {α : Type} (l : List α) (h : 2 ≤ l.length) :
    ∃ a x y, l = a ++ [x, y] := by
  rcases List.eq_nil_or_concat l with rfl | ⟨l1, y, rfl⟩
  · simp at h
  · rcases List.eq_nil_or_concat l1 with rfl | ⟨a, x, rfl⟩
    · simp at h
    · exact ⟨a, x, y, by simp⟩

theorem evict_spec (fuel : Nat) (s : oldNonces) (hs : s.Shape)
    (hb : s.size ≤ s.max + 1) (hc : 1 ≤ s.max) :
    ∃ s2, s.evict (fuel + 1) = .done s2 ∧ s2.Inv ∧ s2.max = s.max ∧
      s2.keys = s.keys.take s.max.toNat := by
  by_cases hle : s.size ≤ s.max
  · refine ⟨s, evict_noop _ s hle, ⟨hs, hle, hc⟩, rfl, ?_⟩
    rw [List.take_of_length_le]
    simp only [oldNonces.keys, List.length_map]
    simp only [oldNonces.size] at hle
    omega
  · have hsz : s.size = s.max + 1 := by omega
    have hlen : 2 ≤ s.nonceMap.length := by
      simp only [oldNonces.size] at hsz
      omega
    obtain ⟨a, x, y, hm⟩ := exists_two_last _ hlen
    have hlk := hs.linked
    rw [hm] at hlk
    obtain ⟨hy, px, hx⟩ := Linked.tail_nodes a hlk
    have hend : s.nonceListEnd = some y.2 := by
      rw [hs.last, hm]; simp
    have hkn := hs.keysNodup
    have hpn := hs.ptrsNodup
    rw [hm] at hkn hpn
    have hdel : mapDelete s.nonceMap y.1 = a ++ [x] := by
      rw [hm]
      have : a ++ [x, y] = (a ++ [x]) ++ [y] := by simp
      rw [this]
      exact mapDelete_last (by rw [← this]; exact hkn)
    have hmaxlen : ((a ++ [x]).length : Int) = s.max := by
      simp only [oldNonces.size, hm] at hsz
      simp only [List.length_append, List.length_cons, List.length_nil] at hsz ⊢
      omega
    refine ⟨{ s with
        heap := s.heap.set x.2 { nonce := x.1, next := none, prev := px }
        nonceListEnd := some x.2
        nonceMap := a ++ [x] }, ?_, ⟨⟨?_, ?_, ?_, ?_, ?_⟩, ?_, hc⟩, rfl, ?_⟩
    · rw [oldNonces.evict]
      simp only [hsz, hend, hy, hx, hdel]
      rw [if_pos (by omega)]
      apply evict_noop
      simp only [oldNonces.size]
      omega
    · have : a ++ [x, y] = (a ++ [x]) ++ [y] := by simp
      rw [this, List.map_append] at hkn
      exact (List.nodup_append.mp hkn).1
    · have : a ++ [x, y] = (a ++ [x]) ++ [y] := by simp
      rw [this, List.map_append] at hpn
      exact (List.nodup_append.mp hpn).1
    · exact Linked.drop_last hx a hlk hpn
    · show s.nonceListStart = _
      rw [hs.start, hm]
      cases a <;> simp
    · simp
    · simp only [oldNonces.size]
      omega
    · simp only [oldNonces.keys, hm]
      have hl : ((a ++ [x]).map Prod.fst).length = s.max.toNat := by
        rw [List.length_map]; omega
      have : (a ++ [x, y]).map Prod.fst = (a ++ [x]).map Prod.fst ++ [y.1] := by simp
      rw [this, ← hl, List.take_left]

/-! ### `add` on a well-formed cache -/

theorem add_present (fuel : Nat) (s : oldNonces) (n : GoString) (h : n ∈ s.keys) :
    s.add fuel n = .done (false, s) := by
  obtain ⟨v, hv⟩ := mapLookup_isSome h
  simp [oldNonces.add, hv]

/-- On a well-formed cache that does not hold `n`, `add` links a new head node
and then runs the eviction loop on the resulting well-formed cache `s1`. -/
theorem add_absent_evict (s : oldNonces) (n : GoString) (hinv : s.Inv) (h : n ∉ s.keys) :
    ∃ s1 : oldNonces, s1.Shape ∧ s1.size ≤ s1.max + 1 ∧ s1.max = s.max ∧ s1.keys = n :: s.keys ∧
      ∀ fuel, s.add fuel n = (s1.evict fuel).bind (fun s2 => .done (true, s2)) := by
  have hlook := mapLookup_eq_none.mpr h
  have hins := mapInsert_fresh s.heap.length h
  have hshape := hinv.shape
  have hbound := hinv.bound
  have key : ∀ (heap2 : List oldNonce) (e : Option Nat),
      Linked heap2 none ((n, s.heap.length) :: s.nonceMap) →
      e = (((n, s.heap.length) :: s.nonceMap).getLast?).map Prod.snd →
      oldNonces.Shape ({ s with
        heap := heap2
        nonceListStart := some s.heap.length
        nonceListEnd := e
        nonceMap := (n, s.heap.length) :: s.nonceMap } : oldNonces) := by
    intro heap2 e hl he
    have hfresh : s.heap.length ∉ s.nonceMap.map Prod.snd := by
      intro hmem
      obtain ⟨x, hx, hxe⟩ := List.mem_map.mp hmem
      have := Linked.lt_length hshape.linked x hx
      omega
    exact ⟨List.nodup_cons.mpr ⟨h, hshape.keysNodup⟩,
        List.nodup_cons.mpr ⟨hfresh, hshape.ptrsNodup⟩, hl, rfl, he⟩
  have hsz : ∀ (heap2 : List oldNonce) (e : Option Nat),
      oldNonces.size ({ s with
        heap := heap2
        nonceListStart := some s.heap.length
        nonceListEnd := e
        nonceMap := (n, s.heap.length) :: s.nonceMap } : oldNonces) ≤ s.max + 1 := by
    intro heap2 e
    simp only [oldNonces.size] at hbound ⊢
    simp only [List.length_cons, Nat.cast_add, Nat.cast_one]
    omega
  cases hm : s.nonceMap with
  | nil =>
    have hst : s.nonceListStart = none := by rw [hshape.start, hm]; rfl
    have hen : s.nonceListEnd = none := by rw [hshape.last, hm]; rfl
    refine ⟨_, key (s.heap ++ [{ nonce := n, next := none, prev := none }])
      (some s.heap.length) (by rw [hm]; exact ⟨by simp, trivial⟩) (by rw [hm]; rfl),
      hsz _ _, rfl, rfl, ?_⟩
    intro fuel
    rw [oldNonces.add]
    simp only [hlook, hins, hst, hen, Run.bind]
  | cons e0 rest =>
    obtain ⟨k0, q⟩ := e0
    have hst : s.nonceListStart = some q := by rw [hshape.start, hm]; rfl
    have hlk := hshape.linked
    rw [hm] at hlk
    have hq : q < s.heap.length := Linked.lt_length hlk (k0, q) (List.mem_cons_self _ _)
    have hq1 : (s.heap ++ [{ nonce := n, next := some q, prev := none }])[q]? =
        some { nonce := k0, next := rest.head?.map Prod.snd, prev := none } := by
      rw [List.getElem?_append_left hq]; exact hlk.1
    obtain ⟨l, hen⟩ : ∃ l, s.nonceListEnd = some l := by
      rw [hshape.last, hm]
      cases hgl : ((k0, q) :: rest).getLast? with
      | none => simp at hgl
      | some v => exact ⟨v.2, rfl⟩
    have hpn := hshape.ptrsNodup
    rw [hm] at hpn
    simp only [List.map_cons, List.nodup_cons] at hpn
    refine ⟨_, key
      ((s.heap ++ [({ nonce := n, next := some q, prev := none } : oldNonce)]).set q
        ({ nonce := k0, next := rest.head?.map Prod.snd, prev := some s.heap.length } : oldNonce))
      (some l)
      (by
        rw [hm]
        refine ⟨?_, ?_, ?_⟩
        · rw [List.getElem?_set_ne (by omega)]
          simp
        · rw [List.getElem?_set_self (by simp; omega)]
        · refine Linked.frame hlk.2 ?_
          intro e he
          have hlt := Linked.lt_length hlk.2 e he
          have hne : q ≠ e.2 := by
            intro heq
            exact hpn.1 (heq ▸ List.mem_map_of_mem Prod.snd he)
          rw [List.getElem?_set_ne hne, List.getElem?_append_left hlt])
      (by
        rw [← hen, hshape.last, hm]
        simp [List.getLast?_cons_cons]),
      hsz _ _, rfl, rfl, ?_⟩
    intro fuel
    rw [oldNonces.add]
    simp only [hlook, hins, hst, hen, hq1, Run.bind]

theorem evict_done_inv (fuel : Nat) (s s2 : oldNonces) (hs : s.Shape)
    (hb : s.size ≤ s.max + 1) (hc : 1 ≤ s.max) (h : s.evict fuel = .done s2) :
    s2.Inv ∧ s2.max = s.max ∧ s2.keys = s.keys.take s.max.toNat := by
  cases fuel with
  | zero =>
    by_cases hgt : s.size > s.max
    · simp [oldNonces.evict, hgt] at h
    · obtain ⟨s3, h3, r⟩ := evict_spec 0 s hs hb hc
      rw [evict_noop _ s (not_lt.mp hgt)] at h3 h
      cases h; cases h3
      exact r
  | succ f =>
    obtain ⟨s3, h3, r⟩ := evict_spec f s hs hb hc
    rw [h3] at h
    cases h
    exact r

theorem add_spec (fuel : Nat) (s : oldNonces) (n : GoString) (hinv : s.Inv) :
    ∃ s2, s.add (fuel + 1) n = .done (decide (n ∉ s.keys), s2) ∧ s2.Inv ∧ s2.max = s.max ∧
      s2.keys = addKeys s.max s.keys n := by
  by_cases h : n ∈ s.keys
  · exact ⟨s, by simpa [h] using add_present (fuel + 1) s n h, hinv, rfl, by simp [addKeys, h]⟩
  · obtain ⟨s1, hs1, hb1, hm1, hk1, hadd⟩ := add_absent_evict s n hinv h
    obtain ⟨s2, he, hi, hm2, hk2⟩ := evict_spec fuel s1 hs1 hb1 (hm1 ▸ hinv.capacity)
    refine ⟨s2, ?_, hi, hm2.trans hm1, ?_⟩
    · rw [hadd, he]; simp [Run.bind, h]
    · rw [hk2, hk1, hm1]; simp [addKeys, h]

theorem add_done_inv (fuel : Nat) (s s2 : oldNonces) (n : GoString) (b : Bool)
    (hinv : s.Inv) (hadd : s.add fuel n = .done (b, s2)) :
    s2.Inv ∧ s2.max = s.max ∧ s2.keys = addKeys s.max s.keys n ∧ b = decide (n ∉ s.keys) := by
  by_cases h : n ∈ s.keys
  · rw [add_present fuel s n h] at hadd
    cases hadd
    exact ⟨hinv, rfl, by simp [addKeys, h], by simp [h]⟩
  · obtain ⟨s1, hs1, hb1, hm1, hk1, hadd1⟩ := add_absent_evict s n hinv h
    rw [hadd1] at hadd
    cases he : s1.evict fuel with
    | done s3 =>
      rw [he] at hadd
      simp only [Run.bind, Run.done.injEq, Prod.mk.injEq] at hadd
      obtain ⟨rfl, rfl⟩ := hadd
      obtain ⟨hi, hm2, hk2⟩ := evict_done_inv fuel s1 s3 hs1 hb1 (hm1 ▸ hinv.capacity) he
      exact ⟨hi, hm2.trans hm1, by rw [hk2, hk1, hm1]; simp [addKeys, h], by simp [h]⟩
    | crash => rw [he] at hadd; simp [Run.bind] at hadd
    | timeout => rw [he] at hadd; simp [Run.bind] at hadd

theorem inv_init (c : Int) (hc : 1 ≤ c) : (newOldNoncesWithMax c).Inv :=
  ⟨⟨List.nodup_nil, List.nodup_nil, trivial, rfl, rfl⟩,
    by simp only [oldNonces.size, newOldNoncesWithMax, newOldNonces]; simp; omega, hc⟩

theorem Reachable.inv {c : Int} (hc : 1 ≤ c) {s : oldNonces} (h : Reachable c s) :
    s.Inv ∧ s.max = c := by
  induction h with
  | init => exact ⟨inv_init c hc, rfl⟩
  | step _ hadd ih =>
    obtain ⟨hi, hm, _, _⟩ := add_done_inv _ _ _ _ _ ih.1 hadd
    exact ⟨hi, hm.trans ih.2⟩

/-! ### Sequences of `add` calls -/

theorem addAll_spec (fuel : Nat) (ns : List GoString) :
    ∀ (s : oldNonces), s.Inv →
      ∃ s2, s.addAll (fuel + 1) ns = .done s2 ∧ s2.Inv ∧ s2.max = s.max ∧
        s2.keys = ns.foldl (addKeys s.max) s.keys := by
  induction ns with
  | nil => intro s hs; exact ⟨s, rfl, hs, rfl, rfl⟩
  | cons n rest ih =>
    intro s hs
    obtain ⟨s1, h1, hi1, hm1, hk1⟩ := add_spec fuel s n hs
    obtain ⟨s2, h2, hi2, hm2, hk2⟩ := ih s1 hi1
    refine ⟨s2, ?_, hi2, hm2.trans hm1, ?_⟩
    · rw [oldNonces.addAll, h1]; exact h2
    · rw [hk2, hk1, hm1]; rfl

theorem take_append_take {α : Type} (a b : List α) (c : Nat) :
    (a ++ b.take c).take c = (a ++ b).take c := by
  rw [List.take_append_eq_append_take, List.take_append_eq_append_take, List.take_take]
  congr 2
  omega

theorem foldl_addKeys_fresh (c : Int) (ns : List GoString) :
    ∀ (keys : List GoString), keys.length ≤ c.toNat → ns.Nodup → (∀ x ∈ ns, x ∉ keys) →
      ns.foldl (addKeys c) keys = (ns.reverse ++ keys).take c.toNat := by
  induction ns with
  | nil => intro keys hl _ _; simp [List.take_of_length_le hl]
  | cons n rest ih =>
    intro keys hl hn hd
    have hnk : n ∉ keys := hd n (List.mem_cons_self _ _)
    rw [List.nodup_cons] at hn
    rw [List.foldl_cons]
    have hstep : addKeys c keys n = (n :: keys).take c.toNat := by simp [addKeys, hnk]
    rw [hstep, ih _ (by simp) hn.2, take_append_take]
    · simp
    · intro x hx hmem
      rcases List.mem_cons.mp (List.mem_of_mem_take hmem) with rfl | hk
      · exact hn.1 hx
      · exact hd x (List.mem_cons_of_mem _ hx) hk

/-- C1. In every cache reachable from the empty cache of capacity `c ≥ 1`, `add n`
returns (whatever positive number of iterations the eviction loop is given), and
it returns `true` exactly when `n` was not a key before the call; after a call
that returned `true` the nonce `n` is a key, and a second `add n` right after the
first returns `false`. -/
theorem add_true_iff_absent (c : Int) (hc : 1 ≤ c) (s : oldNonces) (hs : Reachable c s)
    (n : GoString) (fuel : Nat) :
    ∃ b s1, s.add (fuel + 1) n = .done (b, s1) ∧ (b = true ↔ n ∉ s.keys) ∧
      (b = true → n ∈ s1.keys) ∧ ∃ s2, s1.add (fuel + 1) n = .done (false, s2) := by
  obtain ⟨hinv, hmax⟩ := hs.inv hc
  obtain ⟨s1, h1, hi1, hm1, hk1⟩ := add_spec fuel s n hinv
  have hmem : n ∈ s1.keys := by
    rw [hk1, addKeys]
    split
    · assumption
    · have : 0 < s.max.toNat := by have := hinv.capacity; omega
      obtain ⟨k, hk⟩ := Nat.exists_eq_succ_of_ne_zero (Nat.pos_iff_ne_zero.mp this)
      rw [hk, List.take_succ_cons]
      exact List.mem_cons_self _ _
  exact ⟨_, s1, h1, by simp, fun _ => hmem, s1, add_present _ s1 n hmem⟩

theorem add_true_iff_absent_witness :
    (1 : Int) ≤ 1 ∧ Reachable 1 (newOldNoncesWithMax 1) ∧
    ∃ b s1, (newOldNoncesWithMax 1).add 1 (str "a") = .done (b, s1) ∧
      (b = true ↔ str "a" ∉ (newOldNoncesWithMax 1).keys) ∧
      (b = true → str "a" ∈ s1.keys) ∧ ∃ s2, s1.add 1 (str "a") = .done (false, s2) :=
  ⟨by decide, Reachable.init,
    add_true_iff_absent 1 (by decide) _ Reachable.init (str "a") 0⟩

/-- C2. Starting from the empty cache of capacity `c ≥ 1`, adding `N` pairwise
distinct nonces `ns` in order returns a cache whose size is `min N c` and whose
keys are exactly the `min N c` most recently added nonces, newest first; each of
the `N - c` oldest nonces is no longer a key, and adding it again returns
`true`. -/
theorem addAll_distinct_fifo (c : Int) (hc : 1 ≤ c) (ns : List GoString) (hns : ns.Nodup)
    (fuel : Nat) :
    ∃ s, (newOldNoncesWithMax c).addAll (fuel + 1) ns = .done s ∧
      s.size = min (ns.length : Int) c ∧
      s.keys = ns.reverse.take c.toNat ∧
      ∀ x ∈ ns.take (ns.length - c.toNat),
        x ∉ s.keys ∧ ∃ s1, s.add (fuel + 1) x = .done (true, s1) := by
  obtain ⟨s, h1, hi, hm, hk⟩ := addAll_spec fuel ns _ (inv_init c hc)
  have hk2 : s.keys = ns.reverse.take c.toNat := by
    rw [hk]
    have := foldl_addKeys_fresh c ns [] (by simp) hns (by simp)
    simpa [newOldNoncesWithMax, newOldNonces, oldNonces.keys] using this
  have hgone : ∀ x ∈ ns.take (ns.length - c.toNat), x ∉ s.keys := by
    intro x hx hmem
    rw [hk2] at hmem
    by_cases hle : c.toNat ≤ ns.length
    · rw [List.take_reverse] at hmem
      have hdisj := List.disjoint_take_drop hns (le_refl (ns.length - c.toNat))
      exact hdisj hx (List.mem_reverse.mp hmem)
    · have : ns.length - c.toNat = 0 := by omega
      rw [this] at hx
      simp at hx
  refine ⟨s, h1, ?_, hk2, ?_⟩
  · have hlen : s.size = (s.keys.length : Int) := by simp [oldNonces.size, oldNonces.keys]
    rw [hlen, hk2, List.length_take, List.length_reverse]
    omega
  · intro x hx
    refine ⟨hgone x hx, ?_⟩
    obtain ⟨s1, h2, _⟩ := add_spec fuel s x hi
    exact ⟨s1, by simpa [hgone x hx] using h2⟩

theorem addAll_distinct_fifo_witness :
    (1 : Int) ≤ 2 ∧ [str "a", str "b", str "c"].Nodup ∧
    ∃ s, (newOldNoncesWithMax 2).addAll 1 [str "a", str "b", str "c"] = .done s ∧
      s.size = min (([str "a", str "b", str "c"] : List GoString).length : Int) 2 ∧
      s.keys = ([str "a", str "b", str "c"] : List GoString).reverse.take (2 : Int).toNat ∧
      ∀ x ∈ ([str "a", str "b", str "c"] : List GoString).take
          (([str "a", str "b", str "c"] : List GoString).length - (2 : Int).toNat),
        x ∉ s.keys ∧ ∃ s1, s.add 1 x = .done (true, s1) :=
  ⟨by decide, by decide,
    addAll_distinct_fifo 2 (by decide) [str "a", str "b", str "c"] (by decide) 0⟩

theorem addAll_dropPresent (fuel : Nat) (ns : List GoString) :
    ∀ s : oldNonces, s.addAll fuel (s.dropPresent fuel ns) = s.addAll fuel ns := by
  induction ns with
  | nil => intro s; rfl
  | cons n rest ih =>
    intro s
    by_cases h : n ∈ s.keys
    · rw [oldNonces.dropPresent, if_pos h, ih s, oldNonces.addAll, add_present fuel s n h]
      rfl
    · rw [oldNonces.dropPresent, if_neg h]
      cases hadd : s.add fuel n with
      | done r =>
        simp only [oldNonces.addAll, hadd, Run.bind]
        exact ih r.2
      | crash => rfl
      | timeout => rfl

/-- C9. In every cache reachable from the empty cache of capacity `c ≥ 1`, `add n`
for a nonce `n` that is already a key returns `false` and the cache after the
call is the cache before it (same map, same linked sequence, same oldest node);
and a sequence of `add` calls ends in the same cache as the sequence without the
calls whose nonce is already present at their turn. -/
theorem add_present_unchanged (c : Int) (hc : 1 ≤ c) (s : oldNonces) (hs : Reachable c s)
    (n : GoString) (hn : n ∈ s.keys) (fuel : Nat) (ns : List GoString) :
    s.add (fuel + 1) n = .done (false, s) ∧
      (∃ s2, s.addAll (fuel + 1) ns = .done s2) ∧
      s.addAll (fuel + 1) (s.dropPresent (fuel + 1) ns) = s.addAll (fuel + 1) ns := by
  obtain ⟨s2, h2, _⟩ := addAll_spec fuel ns s (hs.inv hc).1
  exact ⟨add_present _ s n hn, ⟨s2, h2⟩, addAll_dropPresent _ ns s⟩

theorem reachable_cacheA : Reachable 1 cacheA :=
  @Reachable.step 1 _ _ 1 (str "a") true Reachable.init (by decide)

theorem add_present_unchanged_witness :
    (1 : Int) ≤ 1 ∧ Reachable 1 cacheA ∧ str "a" ∈ cacheA.keys ∧
    (cacheA.add 1 (str "a") = .done (false, cacheA) ∧
      (∃ s2, cacheA.addAll 1 [str "a", str "b"] = .done s2) ∧
      cacheA.addAll 1 (cacheA.dropPresent 1 [str "a", str "b"]) =
        cacheA.addAll 1 [str "a", str "b"]) :=
  ⟨by decide, reachable_cacheA, by decide,
    add_present_unchanged 1 (by decide) cacheA reachable_cacheA (str "a") (by decide) 0
      [str "a", str "b"]⟩

/-- C10. In every cache reachable from the empty cache of capacity `max ≥ 1` the
size is at most `max`, and every `add` call on it returns a cache of the same
capacity whose size is at most `max` again. -/
theorem size_le_max (c : Int) (hc : 1 ≤ c) (s : oldNonces) (hs : Reachable c s) :
    s.max = c ∧ s.size ≤ s.max ∧
      ∀ (n : GoString) (fuel : Nat), ∃ b s1, s.add (fuel + 1) n = .done (b, s1) ∧
        s1.max = c ∧ s1.size ≤ s1.max := by
  obtain ⟨hinv, hmax⟩ := hs.inv hc
  refine ⟨hmax, hinv.bound, ?_⟩
  intro n fuel
  obtain ⟨s1, h1, hi1, hm1, _⟩ := add_spec fuel s n hinv
  exact ⟨_, s1, h1, hm1.trans hmax, hi1.bound⟩

theorem size_le_max_witness :
    (1 : Int) ≤ 1 ∧ Reachable 1 cacheA ∧
    (cacheA.max = 1 ∧ cacheA.size ≤ cacheA.max ∧
      ∀ (n : GoString) (fuel : Nat), ∃ b s1, cacheA.add (fuel + 1) n = .done (b, s1) ∧
        s1.max = 1 ∧ s1.size ≤ s1.max) :=
  ⟨by decide, reachable_cacheA, size_le_max 1 (by decide) cacheA reachable_cacheA⟩

/-- The order of the calls does not matter for what C2 states: for pairwise
distinct nonces `ns` and every reordering `ms` of them, adding `ms` in order to
the empty cache of capacity `c ≥ 1` returns a cache of size `min N c` whose keys
are pairwise distinct nonces of `ns`. -/
theorem addAll_any_order (c : Int) (hc : 1 ≤ c) (ns ms : List GoString) (hns : ns.Nodup)
    (hperm : ms.Perm ns) (fuel : Nat) :
    ∃ s, (newOldNoncesWithMax c).addAll (fuel + 1) ms = .done s ∧
      s.size = min (ns.length : Int) c ∧ s.keys.Nodup ∧ ∀ k ∈ s.keys, k ∈ ns := by
  have hms : ms.Nodup := hperm.nodup_iff.mpr hns
  obtain ⟨s, h1, h2, h3, _⟩ := addAll_distinct_fifo c hc ms hms fuel
  refine ⟨s, h1, by rw [h2, hperm.length_eq], ?_, ?_⟩
  · rw [h3]
    exact (List.nodup_reverse.mpr hms).sublist (List.take_sublist _ _)
  · intro k hk
    rw [h3] at hk
    exact hperm.subset (List.mem_reverse.mp (List.mem_of_mem_take hk))

/-! ### The linked sequence and the map describe the same set -/

theorem Linked.walkNext_eq {heap : List oldNonce} :
    ∀ {prev : Option Nat} (m : List (GoString × Nat)) (fuel : Nat), Linked heap prev m →
      m.length ≤ fuel → walkNext heap fuel (m.head?.map Prod.snd) = some (m.map Prod.snd) := by
  intro prev m
  induction m generalizing prev with
  | nil => intro fuel _ _; cases fuel <;> rfl
  | cons e rest ih =>
    obtain ⟨k, p⟩ := e
    intro fuel h hl
    cases fuel with
    | zero => simp at hl
    | succ f =>
      have hrest := ih f h.2 (by simpa using hl)
      simp only [List.head?_cons, Option.map_some', walkNext, h.1, hrest]
      rfl

theorem Linked.nonce_eq {heap : List oldNonce} :
    ∀ {prev : Option Nat} (m : List (GoString × Nat)), Linked heap prev m →
      ∀ e ∈ m, ∃ node, heap[e.2]? = some node ∧ node.nonce = e.1 := by
  intro prev m
  induction m generalizing prev with
  | nil => intro _ e he; cases he
  | cons e0 rest ih =>
    obtain ⟨k, p⟩ := e0
    intro h e he
    rcases List.mem_cons.mp he with rfl | he
    · exact ⟨_, h.1, rfl⟩
    · exact ih h.2 e he

theorem mapLookup_of_mem {m : List (GoString × Nat)} (hn : (m.map Prod.fst).Nodup)
    {k : GoString} {p : Nat} (h : (k, p) ∈ m) : mapLookup m k = some p := by
  induction m with
  | nil => cases h
  | cons e rest ih =>
    obtain ⟨k1, p1⟩ := e
    simp only [List.map_cons, List.nodup_cons] at hn
    rcases List.mem_cons.mp h with heq | hmem
    · cases heq
      simp [mapLookup]
    · have hne : k1 ≠ k := by
        intro e
        exact hn.1 (e ▸ List.mem_map_of_mem Prod.fst hmem)
      simp [mapLookup, hne, ih hn.2 hmem]

theorem mem_of_mapLookup {m : List (GoString × Nat)} {k : GoString} {p : Nat}
    (h : mapLookup m k = some p) : (k, p) ∈ m := by
  induction m with
  | nil => simp [mapLookup] at h
  | cons e rest ih =>
    obtain ⟨k1, p1⟩ := e
    by_cases hk : k1 = k
    · simp only [mapLookup, hk, if_true, Option.some.injEq] at h
      simp [hk, h]
    · simp only [mapLookup, hk, if_false] at h
      exact List.mem_cons_of_mem _ (ih h)

/-- C11. In every cache reachable from the empty cache of capacity `c ≥ 1` (the
cache of `newOldNonces()` has capacity 100000), following `next` from
`nonceListStart` visits a sequence `ps` of nodes that ends in `nonceListEnd`;
the sequence has no node twice and no nonce twice; every node of it is the value
of the map at its nonce; every key of the map is mapped to a node of the
sequence whose nonce is the key; and the sequence is as long as the map. -/
theorem sequence_matches_map (c : Int) (hc : 1 ≤ c) (s : oldNonces) (hs : Reachable c s) :
    ∃ ps, s.sequence = some ps ∧ ps.getLast? = s.nonceListEnd ∧
      ps.Nodup ∧ (ps.map s.nonceAt).Nodup ∧
      (∀ p ∈ ps, mapLookup s.nonceMap (s.nonceAt p) = some p) ∧
      (∀ k p, mapLookup s.nonceMap k = some p → p ∈ ps ∧ s.nonceAt p = k) ∧
      ps.map s.nonceAt = s.keys ∧
      (ps.length : Int) = s.size := by
  obtain ⟨hinv, _⟩ := hs.inv hc
  have hsh := hinv.shape
  have hlen : s.nonceMap.length ≤ s.heap.length := by
    have hsub : ∀ p ∈ s.nonceMap.map Prod.snd, p ∈ List.range s.heap.length := by
      intro p hp
      obtain ⟨e, he, rfl⟩ := List.mem_map.mp hp
      exact List.mem_range.mpr (Linked.lt_length hsh.linked e he)
    have := (List.subperm_of_subset hsh.ptrsNodup hsub).length_le
    simpa using this
  have hnonce : ∀ e ∈ s.nonceMap, s.nonceAt e.2 = e.1 := by
    intro e he
    obtain ⟨node, h1, h2⟩ := Linked.nonce_eq _ hsh.linked e he
    simp [oldNonces.nonceAt, h1, h2]
  have hkeys : (s.nonceMap.map Prod.snd).map s.nonceAt = s.keys := by
    rw [List.map_map, oldNonces.keys]
    exact List.map_congr_left (fun e he => hnonce e he)
  refine ⟨s.nonceMap.map Prod.snd, ?_, ?_, hsh.ptrsNodup, ?_, ?_, ?_, hkeys, ?_⟩
  · rw [oldNonces.sequence, hsh.start]
    exact Linked.walkNext_eq _ _ hsh.linked hlen
  · rw [hsh.last, List.getLast?_map]
  · rw [hkeys]; exact hsh.keysNodup
  · intro p hp
    obtain ⟨e, he, rfl⟩ := List.mem_map.mp hp
    rw [hnonce e he]
    exact mapLookup_of_mem hsh.keysNodup he
  · intro k p hl
    have hmem := mem_of_mapLookup hl
    exact ⟨List.mem_map_of_mem Prod.snd hmem, hnonce _ hmem⟩
  · simp [oldNonces.size]

theorem sequence_matches_map_witness :
    (1 : Int) ≤ 1 ∧ Reachable 1 cacheA ∧
    ∃ ps, cacheA.sequence = some ps ∧ ps.getLast? = cacheA.nonceListEnd ∧
      ps.Nodup ∧ (ps.map cacheA.nonceAt).Nodup ∧
      (∀ p ∈ ps, mapLookup cacheA.nonceMap (cacheA.nonceAt p) = some p) ∧
      (∀ k p, mapLookup cacheA.nonceMap k = some p → p ∈ ps ∧ cacheA.nonceAt p = k) ∧
      ps.map cacheA.nonceAt = cacheA.keys ∧
      (ps.length : Int) = cacheA.size :=
  ⟨by decide, reachable_cacheA, sequence_matches_map 1 (by decide) cacheA reachable_cacheA⟩

/-! ### The eviction loop runs at most once -/

/-- One run of the loop body on a well-formed cache that is one over its
capacity: the two oldest nodes `x` (before the tail) and `y` (the tail) exist,
the tail has `prev = x`, and the loop ends after unlinking `y`. -/
theorem evict_once (s : oldNonces) (hs : s.Shape)
    (hsz : s.size = s.max + 1) (hc : 1 ≤ s.max) :
    ∃ a x y px, s.nonceMap = a ++ [x, y] ∧ s.nonceListEnd = some y.2 ∧
      s.heap[y.2]? = some { nonce := y.1, next := none, prev := some x.2 } ∧
      s.heap[x.2]? = some { nonce := x.1, next := some y.2, prev := px } ∧
      ∀ fuel, s.evict (fuel + 1) = .done { s with
        heap := s.heap.set x.2 { nonce := x.1, next := none, prev := px }
        nonceListEnd := some x.2
        nonceMap := a ++ [x] } := by
  have hlen : 2 ≤ s.nonceMap.length := by
    simp only [oldNonces.size] at hsz
    omega
  obtain ⟨a, x, y, hm⟩ := exists_two_last _ hlen
  have hlk := hs.linked
  rw [hm] at hlk
  obtain ⟨hy, px, hx⟩ := Linked.tail_nodes a hlk
  have hend : s.nonceListEnd = some y.2 := by
    rw [hs.last, hm]; simp
  have hkn := hs.keysNodup
  rw [hm] at hkn
  have hdel : mapDelete s.nonceMap y.1 = a ++ [x] := by
    rw [hm]
    have : a ++ [x, y] = (a ++ [x]) ++ [y] := by simp
    rw [this]
    exact mapDelete_last (by rw [← this]; exact hkn)
  refine ⟨a, x, y, px, hm, hend, hy, hx, fun fuel => ?_⟩
  rw [oldNonces.evict]
  simp only [hsz, hend, hy, hx, hdel]
  rw [if_pos (by omega)]
  apply evict_noop
  simp only [oldNonces.size, hm] at hsz ⊢
  simp only [List.length_append, List.length_cons, List.length_nil] at hsz ⊢
  omega

/-- C18. In every cache reachable from the empty cache of capacity `max ≥ 1`, an
`add` call returns when its eviction loop is given one iteration, and with the
same result for every larger number: the loop body runs at most once. Either it
does not run at all (the call returns with no iteration allowed), or the cache
`s0` on which the loop starts has a tail `l` that is not nil, the tail node has a
`prev` `p` that is not nil and points to a node, so that `last.prev.next = nil`
dereferences no nil pointer, and after the call `nonceListEnd` is `p`, the
second-oldest node of `s0`, whose nonce is the oldest key that is left. -/
theorem evict_at_most_once (c : Int) (hc : 1 ≤ c) (s : oldNonces) (hs : Reachable c s)
    (n : GoString) :
    ∃ b s1, s.add 1 n = .done (b, s1) ∧ (∀ fuel, s.add (fuel + 1) n = .done (b, s1)) ∧
      (s.add 0 n = .done (b, s1) ∨
        ∃ (s0 : oldNonces) (l : Nat) (last : oldNonce) (p : Nat) (pn : oldNonce),
          (∀ fuel, s.add fuel n = (s0.evict fuel).bind (fun s2 => .done (true, s2))) ∧
          s0.size > s0.max ∧ s0.nonceListEnd = some l ∧ s0.heap[l]? = some last ∧
          last.prev = some p ∧ s0.heap[p]? = some pn ∧
          s1.nonceListEnd = some p ∧ s1.keys = s0.keys.dropLast ∧
          s1.keys.getLast? = some pn.nonce) := by
  obtain ⟨hinv, hmax⟩ := hs.inv hc
  by_cases h : n ∈ s.keys
  · exact ⟨false, s, add_present 1 s n h, fun fuel => add_present _ s n h,
      Or.inl (add_present 0 s n h)⟩
  · obtain ⟨s0, hs0, hb0, hm0, hk0, hadd⟩ := add_absent_evict s n hinv h
    by_cases hle : s0.size ≤ s0.max
    · refine ⟨true, s0, ?_, fun fuel => ?_, Or.inl ?_⟩ <;>
        rw [hadd, evict_noop _ s0 hle] <;> rfl
    · have hsz : s0.size = s0.max + 1 := by omega
      have hc0 : 1 ≤ s0.max := hm0 ▸ hinv.capacity
      obtain ⟨a, x, y, px, hm, hend, hy, hx, hev⟩ := evict_once s0 hs0 hsz hc0
      refine ⟨true, { s0 with
          heap := s0.heap.set x.2 { nonce := x.1, next := none, prev := px }
          nonceListEnd := some x.2
          nonceMap := a ++ [x] }, ?_, fun fuel => ?_,
        Or.inr ⟨s0, y.2, _, x.2, _, hadd, by omega, hend, hy, rfl, hx, rfl, ?_, ?_⟩⟩
      · rw [hadd, hev]; rfl
      · rw [hadd, hev]; rfl
      · simp only [oldNonces.keys, hm]
        simp [List.dropLast_append_cons]
      · simp [oldNonces.keys]

theorem evict_at_most_once_witness :
    (1 : Int) ≤ 1 ∧ Reachable 1 cacheA ∧
    ∃ b s1, cacheA.add 1 (str "b") = .done (b, s1) ∧
      (∀ fuel, cacheA.add (fuel + 1) (str "b") = .done (b, s1)) ∧
      (cacheA.add 0 (str "b") = .done (b, s1) ∨
        ∃ (s0 : oldNonces) (l : Nat) (last : oldNonce) (p : Nat) (pn : oldNonce),
          (∀ fuel, cacheA.add fuel (str "b") =
            (s0.evict fuel).bind (fun s2 => .done (true, s2))) ∧
          s0.size > s0.max ∧ s0.nonceListEnd = some l ∧ s0.heap[l]? = some last ∧
          last.prev = some p ∧ s0.heap[p]? = some pn ∧
          s1.nonceListEnd = some p ∧ s1.keys = s0.keys.dropLast ∧
          s1.keys.getLast? = some pn.nonce) :=
  ⟨by decide, reachable_cacheA,
    evict_at_most_once 1 (by decide) cacheA reachable_cacheA (str "b")⟩

/-! ## The endpoint resolver -/

/-! ### `getEndpoint` -/

/-- The body of `getEndpoint` never assigns to `endpoint`: the variable is the
same after every call, and while it is nil every call sends a discovery
request. -/
theorem getEndpoint_endpoint_unchanged (net : Net) (w : World) :
    (getEndpoint net w).2.endpoint = w.endpoint ∧
      (w.endpoint = none → (getEndpoint net w).2.fetches = w.fetches + 1) := by
  cases hw : w.endpoint with
  | some u => simp [getEndpoint, hw]
  | none =>
    simp only [getEndpoint, hw]
    cases net.discover w.fetches with
    | error e => simp
    | ok xrd => cases hp : Parse xrd <;> simp [hp]

/-- C8 (the code at the failing input). In the initial package state, with a
network whose discovery always succeeds, a first `getEndpoint` call succeeds
and returns the parsed endpoint, yet `endpoint` is still nil after it; a second
call sends a second discovery request (two successful fetches in two calls). -/
theorem getEndpoint_fetches_again :
    (getEndpoint (exampleNet exampleEndpoint []) World.initial).1 =
        (some { Scheme := str "https", Opaque := [], User := none,
                Host := str "www.google.com", Path := str "/accounts/o8/ud",
                RawQuery := [], Fragment := [] }, none) ∧
      (getEndpoint (exampleNet exampleEndpoint []) World.initial).2.endpoint = none ∧
      (getEndpoint (exampleNet exampleEndpoint []) World.initial).2.fetches = 1 ∧
      (getEndpoint (exampleNet exampleEndpoint [])
        (getEndpoint (exampleNet exampleEndpoint []) World.initial).2).2.fetches = 2 := by
  decide

/-- `GetAuthURL` never assigns to `endpoint`: after every call that returns, the
variable is what it was before. -/
theorem GetAuthURL_endpoint_unchanged (net : Net) (w w1 : World) (host returnTo : GoString)
    (r : Except Error URL) (h : GetAuthURL net w host returnTo = .done (r, w1)) :
    w1.endpoint = w.endpoint := by
  have hu := (getEndpoint_endpoint_unchanged net w).1
  unfold GetAuthURL at h
  rcases hge : getEndpoint net w with ⟨⟨res, err⟩, w2⟩
  rw [hge] at h hu
  cases err with
  | some e =>
    simp only [Run.done.injEq, Prod.mk.injEq] at h
    rw [← h.2]; exact hu
  | none =>
    cases res with
    | none => simp at h
    | some endp =>
      simp only [Run.done.injEq, Prod.mk.injEq] at h
      rw [← h.2]; exact hu

/-- `VerifyAuth` never assigns to `endpoint`: after every call that returns, the
variable is what it was before. -/
theorem VerifyAuth_endpoint_unchanged (fuel : Nat) (net : Net) (w w1 : World)
    (form : List (GoString × List GoString)) (r : VerifyResult)
    (h : VerifyAuth fuel net w form = .done (r, w1)) :
    w1.endpoint = w.endpoint := by
  have hu := (getEndpoint_endpoint_unchanged net w).1
  unfold VerifyAuth at h
  rcases hge : getEndpoint net w with ⟨⟨res, err⟩, w2⟩
  rw [hge] at h hu
  cases err with
  | some e =>
    simp only [Run.done.injEq, Prod.mk.injEq] at h
    rw [← h.2]; exact hu
  | none =>
    cases res with
    | none => simp at h
    | some endp =>
      simp only at h
      split at h
      · simp only [Run.done.injEq, Prod.mk.injEq] at h
        rw [← h.2]; exact hu
      · split at h
        · simp only [Run.done.injEq, Prod.mk.injEq] at h
          rw [← h.2]; exact hu
        · split at h
          · simp only [Run.done.injEq, Prod.mk.injEq] at h
            rw [← h.2]; exact hu
          · cases hs : scanLines fuel _ { ok := false, nonces := w2.nonces }
                (split (byte '\n') _) with
            | done x =>
              rw [hs] at h
              simp only [Run.bind, Run.done.injEq, Prod.mk.injEq] at h
              rw [← h.2]; exact hu
            | crash => rw [hs] at h; simp [Run.bind] at h
            | timeout => rw [hs] at h; simp [Run.bind] at h

/-- In a package state in which `endpoint` holds a URL, `getEndpoint` skips the
discovery and returns the zero values of its named results, a nil URL and a nil
error. By the three theorems above no call of the package leads from the initial
state, where `endpoint` is nil, to such a state. -/
theorem getEndpoint_of_cached (net : Net) (w : World) (u : URL) (h : w.endpoint = some u) :
    getEndpoint net w = ((none, none), w) := by
  simp [getEndpoint, h]

/-! ## The callback verifier -/

/-! ### The response loop of `VerifyAuth` on well-formed lines -/

theorem splitN2_is_valid_true : splitN2 (byte ':') (str "is_valid:true") =
    [str "is_valid", str "true"] := by decide

/-- One step of the response loop on a line that is well formed and has no
namespace mismatch. -/
theorem scanLines_cons (fuel : Nat) (nonce : GoString) (st : LineScan) (line : GoString)
    (rest : List GoString) (hb : ¬ bareKeyLine line)
    (hns : ∀ v, splitN2 (byte ':') line = [str "ns", v] → v = openidNS) :
    scanLines fuel nonce st (line :: rest) =
      if line = str "is_valid:true" then
        (st.nonces.add fuel nonce).bind fun r =>
          scanLines fuel nonce { ok := if r.1 then true else st.ok, nonces := r.2 } rest
      else scanLines fuel nonce st rest := by
  rw [scanLines]
  rcases splitN2_cases (byte ':') line with h | ⟨a, b, h, hline⟩
  · have hne : line ≠ str "is_valid:true" := by
      intro heq
      rw [heq, splitN2_is_valid_true] at h
      exact absurd h (by decide)
    have h1 : line ≠ str "is_valid" := fun e => hb (Or.inl e)
    have h2 : line ≠ str "ns" := fun e => hb (Or.inr e)
    simp [h, h1, h2, hne]
  · simp only [h, List.getElem?_cons_zero, List.getElem?_cons_succ]
    by_cases ha : a = str "is_valid"
    · by_cases hv : b = str "true"
      · have : line = str "is_valid:true" := by rw [hline, ha, hv]; decide
        simp [ha, hv, this]
      · have : line ≠ str "is_valid:true" := by
          intro heq
          rw [heq, splitN2_is_valid_true] at h
          simp only [List.cons.injEq, and_true] at h
          exact hv h.2.symm
        simp [ha, hv, this]
    · have hne : line ≠ str "is_valid:true" := by
        intro heq
        rw [heq, splitN2_is_valid_true] at h
        simp only [List.cons.injEq, and_true] at h
        exact ha h.1.symm
      by_cases hn : a = str "ns"
      · have hv := hns b (by rw [h, hn])
        have hnn : str "ns" ≠ str "is_valid" := by decide
        simp [hn, hnn, hv, hne, openidNS]
      · simp [ha, hn, hne]

theorem addKeys_mem (c : Int) (hc : 1 ≤ c) (keys : List GoString) (n : GoString) :
    n ∈ addKeys c keys n := by
  rw [addKeys]
  split
  · assumption
  · obtain ⟨k, hk⟩ := Nat.exists_eq_succ_of_ne_zero (show c.toNat ≠ 0 by omega)
    rw [hk, List.take_succ_cons]
    exact List.mem_cons_self _ _

theorem addKeys_of_mem (c : Int) (keys : List GoString) (n : GoString) (h : n ∈ keys) :
    addKeys c keys n = keys := by
  simp [addKeys, h]

/-- The response loop on lines that are well formed and have no namespace
mismatch, from a well-formed cache: it ends without an error, `add` has been
applied exactly when some line is `is_valid:true`, and `ok` has been set exactly
when moreover the nonce was not a key. -/
theorem scanLines_valid (fuel : Nat) (nonce : GoString) (lines : List GoString) :
    (∀ l ∈ lines, ¬ bareKeyLine l) →
    (∀ l ∈ lines, ∀ v, splitN2 (byte ':') l = [str "ns", v] → v = openidNS) →
    ∀ (s : oldNonces) (ok0 : Bool), s.Inv →
      ∃ s1, scanLines (fuel + 1) nonce { ok := ok0, nonces := s } lines =
          .done ({ ok := ok0 || (decide (str "is_valid:true" ∈ lines) &&
                      decide (nonce ∉ s.keys)), nonces := s1 }, none) ∧
        s1.Inv ∧ s1.max = s.max ∧
        s1.keys = if str "is_valid:true" ∈ lines then addKeys s.max s.keys nonce else s.keys := by
  induction lines with
  | nil =>
    intro _ _ s ok0 hs
    exact ⟨s, by simp [scanLines], hs, rfl, by simp⟩
  | cons line rest ih =>
    intro hb hns s ok0 hs
    have hb1 := hb line (List.mem_cons_self _ _)
    have hns1 := hns line (List.mem_cons_self _ _)
    have hb2 : ∀ l ∈ rest, ¬ bareKeyLine l := fun l hl => hb l (List.mem_cons_of_mem _ hl)
    have hns2 : ∀ l ∈ rest, ∀ v, splitN2 (byte ':') l = [str "ns", v] → v = openidNS :=
      fun l hl => hns l (List.mem_cons_of_mem _ hl)
    rw [scanLines_cons fuel.succ nonce _ line rest hb1 hns1]
    by_cases hline : line = str "is_valid:true"
    · obtain ⟨s1, hadd, hi1, hm1, hk1⟩ := add_spec fuel s nonce hs
      obtain ⟨s2, h2, hi2, hm2, hk2⟩ := ih hb2 hns2 s1
        (if decide (nonce ∉ s.keys) = true then true else ok0) hi1
      have hmem : nonce ∈ s1.keys := by
        rw [hk1]; exact addKeys_mem _ hs.capacity _ _
      refine ⟨s2, ?_, hi2, hm2.trans hm1, ?_⟩
      · simp only [hline, if_true, hadd, Run.bind]
        rw [h2]
        by_cases hin : nonce ∈ s.keys <;> simp [hin, hmem]
      · rw [hk2, hm1, hk1]
        simp only [hline, List.mem_cons, true_or, if_true]
        split
        · exact addKeys_of_mem _ _ _ (by rw [← hk1]; exact hmem)
        · rfl
    · obtain ⟨s2, h2, hi2, hm2, hk2⟩ := ih hb2 hns2 s ok0 hs
      refine ⟨s2, ?_, hi2, hm2, ?_⟩
      · rw [if_neg hline, h2]
        have : (str "is_valid:true" ∈ line :: rest) = (str "is_valid:true" ∈ rest) := by
          simp [List.mem_cons, Ne.symm hline]
        simp only [this]
      · rw [hk2]
        have : (str "is_valid:true" ∈ line :: rest) = (str "is_valid:true" ∈ rest) := by
          simp [List.mem_cons, Ne.symm hline]
        simp only [this]

/-- C3, under the extra hypothesis that no line of the response is a bare
`is_valid` or `ns`. When discovery, the scan of the form, `join` and the request
to the provider succeed, every `ns` line of the body carries the namespace and
some line is exactly `is_valid:true`, then `VerifyAuth` returns no error, `ok`
tells whether the nonce of the callback was absent from the cache, the nonce is
in the cache afterwards, and a second verification of the same callback against
the same body returns `ok = false` with no error. -/
theorem VerifyAuth_valid_response (fuel : Nat) (net : Net) (w : World)
    (form : List (GoString × List GoString)) (xrd bod : GoString) (endp joined : URL)
    (st : FormScan)
    (hw : w.endpoint = none)
    (hd : ∀ k, net.discover k = .ok xrd) (hp : Parse xrd = .ok endp)
    (hf : scanForm { returnTo := none, result := [], nonce := [], query := endp.Query } form =
      .ok st)
    (hj : join endp (st.query.Set (str "openid.mode") (str "check_authentication")) =
      .ok joined)
    (hg : net.get joined = .ok bod)
    (hinv : w.nonces.Inv)
    (hb : ∀ l ∈ split (byte '\n') bod, ¬ bareKeyLine l)
    (hns : ∀ l ∈ split (byte '\n') bod, ∀ v, splitN2 (byte ':') l = [str "ns", v] →
      v = openidNS)
    (hv : str "is_valid:true" ∈ split (byte '\n') bod) :
    ∃ w1, VerifyAuth (fuel + 1) net w form =
        .done ({ returnTo := st.returnTo, result := st.result,
                 ok := decide (st.nonce ∉ w.nonces.keys), err := none }, w1) ∧
      st.nonce ∈ w1.nonces.keys ∧
      ∃ w2, VerifyAuth (fuel + 1) net w1 form =
        .done ({ returnTo := st.returnTo, result := st.result, ok := false, err := none }, w2) := by
  have run : ∀ w0 : World, w0.endpoint = none → w0.nonces.Inv →
      ∃ w1, VerifyAuth (fuel + 1) net w0 form =
          .done ({ returnTo := st.returnTo, result := st.result,
                   ok := decide (st.nonce ∉ w0.nonces.keys), err := none }, w1) ∧
        st.nonce ∈ w1.nonces.keys ∧ w1.endpoint = none ∧ w1.nonces.Inv := by
    intro w0 hw0 hinv0
    obtain ⟨s1, h1, hi1, hm1, hk1⟩ := scanLines_valid fuel st.nonce _ hb hns w0.nonces false hinv0
    refine ⟨{ w0 with fetches := w0.fetches + 1, nonces := s1 }, ?_, ?_, hw0, hi1⟩
    · simp only [VerifyAuth, getEndpoint, hw0, hd, hp, hf, hj, hg, h1, Run.bind]
      simp [hv]
    · show st.nonce ∈ s1.keys
      rw [hk1, if_pos hv]
      exact addKeys_mem _ hinv0.capacity _ _
  obtain ⟨w1, h1, hmem, hw1, hi1⟩ := run w hw hinv
  obtain ⟨w2, h2, _⟩ := run w1 hw1 hi1
  exact ⟨w1, h1, hmem, w2, by simpa [hmem] using h2⟩

/-- Without a line `is_valid:true` the response loop leaves `ok` and the cache
as they were, however it ends. -/
theorem scanLines_unchanged (fuel : Nat) (nonce : GoString) (lines : List GoString) :
    str "is_valid:true" ∉ lines →
    ∀ (st : LineScan) (r : LineScan × Option Error),
      scanLines fuel nonce st lines = .done r → r.1 = st := by
  induction lines with
  | nil =>
    intro _ st r h
    simp only [scanLines, Run.done.injEq] at h
    rw [← h]
  | cons line rest ih =>
    intro hv st r h
    have hline : line ≠ str "is_valid:true" := fun e => hv (by simp [e])
    have hrest : str "is_valid:true" ∉ rest := fun e => hv (List.mem_cons_of_mem _ e)
    rw [scanLines] at h
    rcases splitN2_cases (byte ':') line with hs | ⟨a, b, hs, hab⟩
    · simp only [hs, List.getElem?_cons_zero, List.getElem?_cons_succ,
        List.getElem?_nil] at h
      split at h
      · cases h
      · split at h
        · cases h
        · exact ih hrest st r h
    · simp only [hs, List.getElem?_cons_zero, List.getElem?_cons_succ] at h
      split at h
      · rename_i ha
        split at h
        · rename_i hb
          exfalso
          apply hline
          rw [hab, ha, hb]
          decide
        · exact ih hrest st r h
      · split at h
        · split at h
          · simp only [Run.done.injEq] at h
            rw [← h]
          · exact ih hrest st r h
        · exact ih hrest st r h

/-- Every return of `VerifyAuth`, with an error or without, leaves `ok` false and
the nonce cache as it was, unless the provider's response has a line
`is_valid:true`. -/
theorem VerifyAuth_without_valid_line (fuel : Nat) (net : Net) (w w1 : World)
    (form : List (GoString × List GoString)) (r : VerifyResult)
    (h : VerifyAuth fuel net w form = .done (r, w1))
    (hbody : ∀ u bod, net.get u = .ok bod → str "is_valid:true" ∉ split (byte '\n') bod) :
    r.ok = false ∧ w1.nonces = w.nonces := by
  have hge : (getEndpoint net w).2.nonces = w.nonces := by
    unfold getEndpoint
    cases w.endpoint with
    | some u => rfl
    | none =>
      simp only
      cases net.discover w.fetches with
      | error e => rfl
      | ok xrd => cases hp : Parse xrd <;> simp [hp]
  unfold VerifyAuth at h
  split at h
  · rename_i x1 w0 err heq
    simp only [Run.done.injEq, Prod.mk.injEq] at h
    rw [heq] at hge
    rw [← h.1, ← h.2]
    exact ⟨rfl, hge⟩
  · cases h
  · rename_i x1 endp w0 heq
    rw [heq] at hge
    simp only at hge
    split at h
    · simp only [Run.done.injEq, Prod.mk.injEq] at h
      rw [← h.1, ← h.2]
      exact ⟨rfl, hge⟩
    · split at h
      · simp only [Run.done.injEq, Prod.mk.injEq] at h
        rw [← h.1, ← h.2]
        exact ⟨rfl, hge⟩
      · split at h
        · simp only [Run.done.injEq, Prod.mk.injEq] at h
          rw [← h.1, ← h.2]
          exact ⟨rfl, hge⟩
        · rename_i joined bod hget
          cases hsl : scanLines fuel _ { ok := false, nonces := w0.nonces }
              (split (byte '\n') bod) with
          | done rr =>
            rw [hsl] at h
            simp only [Run.bind, Run.done.injEq, Prod.mk.injEq] at h
            have := scanLines_unchanged fuel _ _ (hbody _ _ hget) _ _ hsl
            rw [← h.1, ← h.2, this]
            exact ⟨rfl, hge⟩
          | crash => rw [hsl] at h; simp [Run.bind] at h
          | timeout => rw [hsl] at h; simp [Run.bind] at h

/-! ### The response loop of `VerifyAuth` on lines with a colon after each key -/

theorem splitN2_ns (v : GoString) : splitN2 (byte ':') (str "ns:" ++ v) = [str "ns", v] := by
  have h : str "ns:" ++ v = str "ns" ++ byte ':' :: v := by
    have : str "ns:" = str "ns" ++ [byte ':'] := by decide
    rw [this]; simp
  rw [h, splitN2, cut_at _ _ _ (by decide)]
  simp

theorem nsMismatchLine_iff (line : GoString) :
    nsMismatchLine line ↔ ∃ v, splitN2 (byte ':') line = [str "ns", v] ∧ v ≠ openidNS := by
  constructor
  · rintro ⟨hp, hv⟩
    obtain ⟨t, ht⟩ := List.isPrefixOf_iff_prefix.mp hp
    have hd : line.drop 3 = t := by
      rw [← ht]
      have : (str "ns:").length = 3 := by decide
      rw [← this, List.drop_left]
    refine ⟨t, ?_, hd ▸ hv⟩
    rw [← ht]
    exact splitN2_ns t
  · rintro ⟨v, hs, hv⟩
    rcases splitN2_cases (byte ':') line with h | ⟨a, b, h, hline⟩
    · rw [h] at hs; simp at hs
    · rw [h] at hs
      simp only [List.cons.injEq, and_true] at hs
      obtain ⟨rfl, rfl⟩ := hs
      have hl : line = str "ns:" ++ b := by
        have : str "ns:" = str "ns" ++ [byte ':'] := by decide
        rw [hline, this]; simp
      refine ⟨List.isPrefixOf_iff_prefix.mpr ⟨b, hl.symm⟩, ?_⟩
      have : (str "ns:").length = 3 := by decide
      rw [hl, ← this, List.drop_left]
      exact hv

/-- The response loop stops at a line `ns:v` with a wrong namespace: it returns
the error with `ok` and the cache as they are. -/
theorem scanLines_mismatch (fuel : Nat) (nonce : GoString) (st : LineScan) (line : GoString)
    (rest : List GoString) (h : nsMismatchLine line) :
    scanLines fuel nonce st (line :: rest) =
      .done (st, some (.unknownNamespace (line.drop 3))) := by
  obtain ⟨v, hs, hv⟩ := (nsMismatchLine_iff line).mp h
  have hd : line.drop 3 = v := by
    obtain ⟨hp, _⟩ := h
    obtain ⟨t, ht⟩ := List.isPrefixOf_iff_prefix.mp hp
    have h3 : (str "ns:").length = 3 := by decide
    have : line.drop 3 = t := by rw [← ht, ← h3, List.drop_left]
    rw [this]
    rw [← ht, splitN2_ns] at hs
    simpa using hs
  have hnn : str "ns" ≠ str "is_valid" := by decide
  rw [scanLines, hd]
  simp [hs, hnn, hv, openidNS] 
  exact fun e => absurd e (by simpa [openidNS] using hv)

/-- When every key `is_valid` or `ns` of the response is followed by a colon,
the response loop returns from every well-formed cache, with a well-formed
cache, and it returns an error exactly when some line is `ns:v` with a wrong
namespace. -/
theorem scanLines_total (fuel : Nat) (nonce : GoString) (lines : List GoString) :
    (∀ l ∈ lines, ¬ bareKeyLine l) →
    ∀ (s : oldNonces) (ok0 : Bool), s.Inv →
      ∃ st e, scanLines (fuel + 1) nonce { ok := ok0, nonces := s } lines = .done (st, e) ∧
        st.nonces.Inv ∧ (e = none ↔ ∀ l ∈ lines, ¬ nsMismatchLine l) := by
  induction lines with
  | nil =>
    intro _ s ok0 hs
    exact ⟨{ ok := ok0, nonces := s }, none, by simp [scanLines], hs, by simp⟩
  | cons line rest ih =>
    intro hb s ok0 hs
    have hb1 := hb line (List.mem_cons_self _ _)
    have hb2 : ∀ l ∈ rest, ¬ bareKeyLine l := fun l hl => hb l (List.mem_cons_of_mem _ hl)
    by_cases hmis : nsMismatchLine line
    · refine ⟨_, _, scanLines_mismatch _ nonce _ line rest hmis, hs, ?_⟩
      simp only [reduceCtorEq, false_iff, not_forall]
      exact ⟨line, List.mem_cons_self _ _, fun h => h hmis⟩
    · have hns : ∀ v, splitN2 (byte ':') line = [str "ns", v] → v = openidNS := by
        intro v hv
        by_contra hne
        exact hmis ((nsMismatchLine_iff line).mpr ⟨v, hv, hne⟩)
      rw [scanLines_cons fuel.succ nonce _ line rest hb1 hns]
      have hiff : (∀ l ∈ line :: rest, ¬ nsMismatchLine l) ↔ ∀ l ∈ rest, ¬ nsMismatchLine l := by
        simp [hmis]
      rw [hiff]
      by_cases hline : line = str "is_valid:true"
      · obtain ⟨s1, hadd, hi1, _, _⟩ := add_spec fuel s nonce hs
        simp only [hline, if_true, hadd, Run.bind]
        exact ih hb2 s1 _ hi1
      · rw [if_neg hline]
        exact ih hb2 s ok0 hs

/-- The call of `VerifyAuth` once discovery, the scan of the form, `join` and
the request to the provider have succeeded: the outcome of the loop over the
lines of the response body. -/
theorem VerifyAuth_eq_scanLines (fuel : Nat) (net : Net) (w : World)
    (form : List (GoString × List GoString)) (xrd bod : GoString) (endp joined : URL)
    (st : FormScan)
    (hw : w.endpoint = none)
    (hd : net.discover w.fetches = .ok xrd) (hp : Parse xrd = .ok endp)
    (hf : scanForm { returnTo := none, result := [], nonce := [], query := endp.Query } form =
      .ok st)
    (hj : join endp (st.query.Set (str "openid.mode") (str "check_authentication")) =
      .ok joined)
    (hg : net.get joined = .ok bod) :
    VerifyAuth fuel net w form =
      (scanLines fuel st.nonce { ok := false, nonces := w.nonces }
          (split (byte '\n') bod)).bind fun r =>
        .done ({ returnTo := st.returnTo, result := st.result, ok := r.1.ok, err := r.2 },
          { w with fetches := w.fetches + 1, nonces := r.1.nonces }) := by
  simp only [VerifyAuth, getEndpoint, hw, hd, hp, hf, hj, hg]

/-- C13, under the extra hypothesis that every key `is_valid` or `ns` of the
response is followed by a colon: a response with a line `ns:v`, `v` not the
namespace, makes `VerifyAuth` return a non-nil error. -/
theorem VerifyAuth_mismatch_error (fuel : Nat) (net : Net) (w : World)
    (form : List (GoString × List GoString)) (xrd bod : GoString) (endp joined : URL)
    (st : FormScan)
    (hw : w.endpoint = none)
    (hd : net.discover w.fetches = .ok xrd) (hp : Parse xrd = .ok endp)
    (hf : scanForm { returnTo := none, result := [], nonce := [], query := endp.Query } form =
      .ok st)
    (hj : join endp (st.query.Set (str "openid.mode") (str "check_authentication")) =
      .ok joined)
    (hg : net.get joined = .ok bod)
    (hinv : w.nonces.Inv)
    (hb : ∀ l ∈ split (byte '\n') bod, ¬ bareKeyLine l)
    (hmis : ∃ l ∈ split (byte '\n') bod, nsMismatchLine l) :
    ∃ r w1, VerifyAuth (fuel + 1) net w form = .done (r, w1) ∧ r.err ≠ none := by
  obtain ⟨st1, e, hscan, _, hiff⟩ := scanLines_total fuel st.nonce _ hb w.nonces false hinv
  refine ⟨{ returnTo := st.returnTo, result := st.result, ok := st1.ok, err := e },
    { w with fetches := w.fetches + 1, nonces := st1.nonces }, ?_, ?_⟩
  · rw [VerifyAuth_eq_scanLines _ net w form xrd bod endp joined st hw hd hp hf hj hg, hscan]
    rfl
  · obtain ⟨l, hl, hm⟩ := hmis
    intro he
    exact (hiff.mp he) l hl hm

/-- C14, under the extra hypothesis that every key `is_valid` or `ns` of the
response is followed by a colon: a response without a wrong namespace and
without a line `is_valid:true` makes `VerifyAuth` return `ok = false` and no
error, and the nonce cache is the same after the call. -/
theorem VerifyAuth_not_valid (fuel : Nat) (net : Net) (w : World)
    (form : List (GoString × List GoString)) (xrd bod : GoString) (endp joined : URL)
    (st : FormScan)
    (hw : w.endpoint = none)
    (hd : net.discover w.fetches = .ok xrd) (hp : Parse xrd = .ok endp)
    (hf : scanForm { returnTo := none, result := [], nonce := [], query := endp.Query } form =
      .ok st)
    (hj : join endp (st.query.Set (str "openid.mode") (str "check_authentication")) =
      .ok joined)
    (hg : net.get joined = .ok bod)
    (hinv : w.nonces.Inv)
    (hb : ∀ l ∈ split (byte '\n') bod, ¬ bareKeyLine l)
    (hns : ∀ l ∈ split (byte '\n') bod, ¬ nsMismatchLine l)
    (hv : str "is_valid:true" ∉ split (byte '\n') bod) :
    VerifyAuth (fuel + 1) net w form =
      .done ({ returnTo := st.returnTo, result := st.result, ok := false, err := none },
        { w with fetches := w.fetches + 1 }) := by
  obtain ⟨st1, e, hscan, _, hiff⟩ := scanLines_total fuel st.nonce _ hb w.nonces false hinv
  have he : e = none := hiff.mpr hns
  have hst := scanLines_unchanged _ _ _ hv _ _ hscan
  simp only at hst
  rw [VerifyAuth_eq_scanLines _ net w form xrd bod endp joined st hw hd hp hf hj hg, hscan]
  simp only [Run.bind, hst, he]

/-- The response loop aborts on a first line that is a bare `is_valid` or `ns`:
`kv[1]` is out of range. -/
theorem scanLines_bare (fuel : Nat) (nonce : GoString) (st : LineScan) (line : GoString)
    (rest : List GoString) (h : bareKeyLine line) :
    scanLines fuel nonce st (line :: rest) = .crash := by
  rcases h with rfl | rfl
  · rw [scanLines]
    have : splitN2 (byte ':') (str "is_valid") = [str "is_valid"] := by decide
    simp [this]
  · rw [scanLines]
    have : splitN2 (byte ':') (str "ns") = [str "ns"] := by decide
    have hnn : str "ns" ≠ str "is_valid" := by decide
    simp [this, hnn]

/-! ### The parameters that `VerifyAuth` forwards -/

theorem lookup_Add (m : Values) (k v key : GoString) :
    (m.Add k v).lookup key = if k = key then m.lookup key ++ [v] else m.lookup key := by
  induction m with
  | nil => by_cases h : k = key <;> simp [Values.Add, Values.lookup, h]
  | cons e rest ih =>
    obtain ⟨k1, vs⟩ := e
    by_cases h1 : k1 = k
    · subst h1
      by_cases h : k1 = key <;> simp [Values.Add, Values.lookup, h]
    · by_cases h2 : k1 = key
      · subst h2
        simp [Values.Add, Values.lookup, h1, Ne.symm h1]
      · simp [Values.Add, Values.lookup, h1, h2, ih]

theorem lookup_Set (m : Values) (k v key : GoString) :
    (m.Set k v).lookup key = if k = key then [v] else m.lookup key := by
  induction m with
  | nil => by_cases h : k = key <;> simp [Values.Set, Values.lookup, h]
  | cons e rest ih =>
    obtain ⟨k1, vs⟩ := e
    by_cases h1 : k1 = k
    · subst h1
      by_cases h : k1 = key <;> simp [Values.Set, Values.lookup, h]
    · by_cases h2 : k1 = key
      · subst h2
        simp [Values.Set, Values.lookup, h1, Ne.symm h1]
      · simp [Values.Set, Values.lookup, h1, h2, ih]

theorem scanValues_query (key : GoString) (values : List GoString) :
    ∀ (st st1 : FormScan), scanValues key st values = .ok st1 →
      ∀ K, st1.query.lookup K = st.query.lookup K ++ (if key = K then values else []) := by
  induction values with
  | nil =>
    intro st st1 h K
    simp only [scanValues, Except.ok.injEq] at h
    subst h
    simp
  | cons value rest ih =>
    intro st st1 h K
    rw [scanValues] at h
    simp only at h
    split at h
    · cases h
    · rename_i st2 hparsed
      have hq : st2.query = st.query := by
        split at hparsed
        · split at hparsed
          · cases hparsed
          · simp only [Except.ok.injEq] at hparsed
            subst hparsed
            split <;> rfl
        · simp only [Except.ok.injEq] at hparsed
          subst hparsed
          split <;> rfl
      have := ih _ _ h K
      rw [this]
      have hq3 : (if key = str "openid.response_nonce" then { st2 with nonce := value }
          else st2).query = st.query := by
        split <;> simp [hq]
      simp only [hq3, lookup_Add]
      by_cases hk : key = K <;> simp [hk]

theorem scanForm_query (form : List (GoString × List GoString)) :
    ∀ (st st1 : FormScan), scanForm st form = .ok st1 →
      ∀ K, st1.query.lookup K = st.query.lookup K ++ formValues form K := by
  induction form with
  | nil =>
    intro st st1 h K
    simp only [scanForm, Except.ok.injEq] at h
    subst h
    simp [formValues]
  | cons e rest ih =>
    obtain ⟨key, values⟩ := e
    intro st st1 h K
    rw [scanForm] at h
    split at h
    · cases h
    · rename_i st2 hv
      rw [ih _ _ h K, scanValues_query key values _ _ hv K]
      by_cases hk : key = K <;> simp [formValues, hk]

/-- C15. Whenever `VerifyAuth` gets as far as calling `join` (discovery has
succeeded with the endpoint `endp` and the scan of the form has ended in `st`),
the parameter set `forwardedQuery st` that it passes has exactly one value for
`openid.mode`, namely `check_authentication`, and for every other key the values
of the endpoint's own query followed by the values that the form lists for the
key, unchanged and in the order of the form. The outcome of `join` on this set
is what the call goes on with: its error is returned, its URL is the one the
provider is asked with. -/
theorem forwarded_parameters (endp : URL) (form : List (GoString × List GoString))
    (st : FormScan)
    (hf : scanForm { returnTo := none, result := [], nonce := [], query := endp.Query } form =
      .ok st) :
    (forwardedQuery st).lookup (str "openid.mode") = [str "check_authentication"] ∧
      (∀ K, K ≠ str "openid.mode" →
        (forwardedQuery st).lookup K = endp.Query.lookup K ++ formValues form K) ∧
      (∀ (fuel : Nat) (net : Net) (w : World) (xrd : GoString), w.endpoint = none →
        net.discover w.fetches = .ok xrd → Parse xrd = .ok endp →
        (∀ e, join endp (forwardedQuery st) = .error e →
          VerifyAuth fuel net w form =
            .done ({ returnTo := st.returnTo, result := st.result, ok := false, err := some e },
              { w with fetches := w.fetches + 1 })) ∧
        (∀ joined e, join endp (forwardedQuery st) = .ok joined → net.get joined = .error e →
          VerifyAuth fuel net w form =
            .done ({ returnTo := st.returnTo, result := st.result, ok := false, err := some e },
              { w with fetches := w.fetches + 1 }))) := by
  refine ⟨?_, ?_, ?_⟩
  · simp [forwardedQuery, lookup_Set]
  · intro K hK
    rw [forwardedQuery, lookup_Set, if_neg (Ne.symm hK)]
    exact scanForm_query form _ _ hf K
  · intro fuel net w xrd hw hd hp
    constructor
    · intro e hj
      rw [forwardedQuery] at hj
      simp only [VerifyAuth, getEndpoint, hw, hd, hp, hf, hj]
    · intro joined e hj hg
      rw [forwardedQuery] at hj
      simp only [VerifyAuth, getEndpoint, hw, hd, hp, hf, hj, hg]

theorem forwarded_parameters_witness :
    scanForm { returnTo := none, result := [], nonce := [], query := exampleBase.Query }
        exampleCallback = .ok exampleScan ∧
      (forwardedQuery exampleScan).lookup (str "openid.mode") = [str "check_authentication"] ∧
      (forwardedQuery exampleScan).lookup (str "openid.sig") =
        exampleBase.Query.lookup (str "openid.sig") ++
          formValues exampleCallback (str "openid.sig") :=
  ⟨by decide,
    (forwarded_parameters exampleBase exampleCallback exampleScan (by decide)).1,
    (forwarded_parameters exampleBase exampleCallback exampleScan (by decide)).2.1
      (str "openid.sig") (by decide)⟩

/-! ### `VerifyAuth` on concrete responses -/

/-- C3 (the code at the failing input). The response body `is_valid:true`,
`is_valid` has no `ns` line and has a line that is exactly `is_valid:true`, and
the nonce `n1` of the callback is not in the cache; `VerifyAuth` does not return:
on the second line `kv` has length one and `kv[1]` is out of range. -/
theorem VerifyAuth_bare_is_valid_crashes :
    (∀ line ∈ split (byte '\n') (str "is_valid:true\nis_valid"),
        (splitN2 (byte ':') line)[0]? = some (str "ns") →
          line = str "ns:http://specs.openid.net/auth/2.0") ∧
      str "is_valid:true" ∈ split (byte '\n') (str "is_valid:true\nis_valid") ∧
      str "n1" ∉ World.initial.nonces.keys ∧
      VerifyAuth 1 (exampleNet exampleEndpoint (str "is_valid:true\nis_valid"))
        World.initial exampleForm = .crash := by
  decide

/-- C4 (the code at the failing input). For the response body `is_valid:true`,
`ns:http://bad` and a fresh nonce `n1`, `VerifyAuth` returns a non-nil error
together with `ok = true`, and the cache holds `n1` after the call. -/
theorem VerifyAuth_error_after_is_valid :
    str "n1" ∉ World.initial.nonces.keys ∧
      VerifyAuth 1 (exampleNet exampleEndpoint (str "is_valid:true\nns:http://bad"))
        World.initial exampleForm =
      .done ({ returnTo := none, result := [], ok := true,
               err := some (.unknownNamespace (str "http://bad")) },
             { endpoint := none,
               nonces := { heap := [{ nonce := str "n1", next := none, prev := none }]
                           nonceMap := [(str "n1", 0)]
                           nonceListStart := some 0
                           nonceListEnd := some 0
                           max := maxOldNonces },
               fetches := 1 }) := by
  decide

/-- C13 (the code at the failing input). The response body `is_valid`,
`ns:http://bad` has a line `ns:v` with a wrong namespace, yet `VerifyAuth` does
not return an error: it does not return, because the line before it is a bare
`is_valid` and `kv[1]` is out of range. -/
theorem VerifyAuth_mismatch_after_bare_line_crashes :
    (∃ l ∈ split (byte '\n') (str "is_valid\nns:http://bad"), nsMismatchLine l) ∧
      VerifyAuth 1 (exampleNet exampleEndpoint (str "is_valid\nns:http://bad"))
        World.initial exampleForm = .crash := by
  decide

/-- C14 (the code at the failing input). The response body
`ns:http://specs.openid.net/auth/2.0`, `is_valid` has no wrong namespace and no
line `is_valid:true`, yet `VerifyAuth` does not return `ok = false`: it does not
return, because `kv[1]` is out of range on the line `is_valid`. -/
theorem VerifyAuth_bare_is_valid_after_ns_crashes :
    (∀ l ∈ split (byte '\n') (str "ns:http://specs.openid.net/auth/2.0\nis_valid"),
        ¬ nsMismatchLine l) ∧
      str "is_valid:true" ∉
        split (byte '\n') (str "ns:http://specs.openid.net/auth/2.0\nis_valid") ∧
      VerifyAuth 1
        (exampleNet exampleEndpoint (str "ns:http://specs.openid.net/auth/2.0\nis_valid"))
        World.initial exampleForm = .crash := by
  decide

/-- C17 (the code at the failing input). On the one-line response bodies
`is_valid` and `ns` the loop over the lines aborts (`kv` has length one and
`kv[1]` is out of range), and so does `VerifyAuth`. -/
theorem VerifyAuth_key_without_colon_crashes :
    splitN2 (byte ':') (str "is_valid") = [str "is_valid"] ∧
      scanLines 1 (str "n1") { ok := false, nonces := newOldNonces }
        (split (byte '\n') (str "is_valid")) = .crash ∧
      scanLines 1 (str "n1") { ok := false, nonces := newOldNonces }
        (split (byte '\n') (str "ns")) = .crash ∧
      VerifyAuth 1 (exampleNet exampleEndpoint (str "is_valid")) World.initial exampleForm =
        .crash ∧
      VerifyAuth 1 (exampleNet exampleEndpoint (str "ns")) World.initial exampleForm =
        .crash := by
  decide

/-! ## The URL composer and the request builder -/

/-! ### `join` on a base URL whose components hold no `?` and no `#` -/

theorem upperhex_ne_hash (n : UInt8) : upperhex n ≠ byte '#' := by
  unfold upperhex
  intro h
  have hmem : (str "0123456789ABCDEF").getD n.toNat 0 ∈ (0 : UInt8) :: str "0123456789ABCDEF" := by
    rw [List.getD_eq_getElem?_getD]
    cases hg : (str "0123456789ABCDEF")[n.toNat]? with
    | none => simp
    | some v => exact List.mem_cons_of_mem _ (List.getElem?_mem hg)
  rw [h] at hmem
  revert hmem
  decide

theorem hash_not_mem_QueryEscape (s : GoString) : byte '#' ∉ QueryEscape s := by
  unfold QueryEscape
  induction s with
  | nil => simp [escape]
  | cons c rest ih =>
    rw [escape]
    split
    · simp only [List.mem_cons, not_or]
      exact ⟨by decide, ih⟩
    · split
      · simp only [List.mem_cons, not_or]
        exact ⟨by decide, (upperhex_ne_hash _).symm, (upperhex_ne_hash _).symm, ih⟩
      · rename_i hs
        simp only [List.mem_cons, not_or]
        refine ⟨?_, ih⟩
        intro e
        apply hs
        rw [← e]
        decide

theorem hash_not_mem_joinAmp (ps : List GoString) (h : ∀ p ∈ ps, byte '#' ∉ p) :
    byte '#' ∉ joinAmp ps := by
  induction ps with
  | nil => simp [joinAmp]
  | cons p rest ih =>
    cases rest with
    | nil => simpa [joinAmp] using h p (List.mem_cons_self _ _)
    | cons q rest2 =>
      rw [joinAmp]
      simp only [List.mem_append, List.mem_singleton, not_or]
      exact ⟨⟨h p (List.mem_cons_self _ _), by decide⟩,
        ih (fun x hx => h x (List.mem_cons_of_mem _ hx))⟩

theorem hash_not_mem_encodePairs (v : Values) : ∀ p ∈ encodePairs v, byte '#' ∉ p := by
  induction v with
  | nil => simp [encodePairs]
  | cons e rest ih =>
    obtain ⟨k, vs⟩ := e
    intro p hp
    rw [encodePairs, List.mem_append] at hp
    rcases hp with hp | hp
    · obtain ⟨x, _, rfl⟩ := List.mem_map.mp hp
      simp only [List.mem_append, List.mem_singleton, not_or]
      exact ⟨⟨hash_not_mem_QueryEscape k, by decide⟩, hash_not_mem_QueryEscape x⟩
    · exact ih p hp

theorem hash_not_mem_Encode (v : Values) : byte '#' ∉ v.Encode :=
  hash_not_mem_joinAmp _ (hash_not_mem_encodePairs _)

theorem getSchemeLoop_rest (raw : GoString) (l : GoString) :
    ∀ (first : Bool) (acc sch rest0 : GoString),
      getSchemeLoop raw first acc l = .ok (sch, rest0) →
      rest0 = raw ∨ ∃ pre, l = pre ++ byte ':' :: rest0 ∧ byte '?' ∉ pre := by
  induction l with
  | nil =>
    intro first acc sch rest0 h
    simp only [getSchemeLoop, Except.ok.injEq, Prod.mk.injEq] at h
    exact Or.inl h.2.symm
  | cons c rest ih =>
    intro first acc sch rest0 h
    rw [getSchemeLoop] at h
    split at h
    · rename_i hc
      rcases ih _ _ _ _ h with h1 | ⟨pre, hp, hq⟩
      · exact Or.inl h1
      · refine Or.inr ⟨c :: pre, by rw [hp]; rfl, ?_⟩
        simp only [List.mem_cons, not_or]
        refine ⟨?_, hq⟩
        intro e
        rw [← e] at hc
        revert hc
        decide
    · split at h
      · rename_i hc
        split at h
        · simp only [Except.ok.injEq, Prod.mk.injEq] at h
          exact Or.inl h.2.symm
        · rcases ih _ _ _ _ h with h1 | ⟨pre, hp, hq⟩
          · exact Or.inl h1
          · refine Or.inr ⟨c :: pre, by rw [hp]; rfl, ?_⟩
            simp only [List.mem_cons, not_or]
            refine ⟨?_, hq⟩
            intro e
            rw [← e] at hc
            revert hc
            decide
      · split at h
        · rename_i hc
          split at h
          · cases h
          · simp only [Except.ok.injEq, Prod.mk.injEq] at h
            exact Or.inr ⟨[], by rw [hc, h.2]; rfl, by simp⟩
        · simp only [Except.ok.injEq, Prod.mk.injEq] at h
          exact Or.inl h.2.symm

/-- The raw query that `parse` splits off a text `p?q` in which `p` has no `?`
is `q`, whatever scheme `getScheme` finds. -/
theorem splitQuery_after_scheme (p q sch rest0 : GoString) (hp : byte '?' ∉ p)
    (hg : getScheme (p ++ byte '?' :: q) = .ok (sch, rest0)) :
    (splitQuery rest0).2 = q := by
  have hcut : (cut (byte '?') rest0).2.1 = q ∧ (cut (byte '?') rest0).2.2 = true := by
    rcases getSchemeLoop_rest _ _ _ _ _ _ hg with h1 | ⟨pre, hpre, hq⟩
    · rw [h1, cut_at _ _ _ hp]; exact ⟨rfl, rfl⟩
    · have h1 := cut_at (byte '?') p q hp
      have hpre2 : p ++ byte '?' :: q = (pre ++ [byte ':']) ++ rest0 := by rw [hpre]; simp
      rw [hpre2, cut_append_of_not_mem] at h1
      · simp only [Prod.mk.injEq] at h1
        exact ⟨h1.2.1, h1.2.2⟩
      · simp only [List.mem_append, List.mem_singleton, not_or]
        exact ⟨hq, by decide⟩
  unfold splitQuery
  split
  · rename_i hforce
    obtain ⟨hend, hcount⟩ := hforce
    have hrest := (cut_eq (byte '?') rest0).1 hcut.2
    rw [hcut.1] at hrest
    have hnq : byte '?' ∉ q := by
      rw [hrest] at hcount
      simp only [List.count_append, List.count_cons_self] at hcount
      have : List.count (byte '?') q = 0 := by omega
      exact List.count_eq_zero.mp this
    rcases List.eq_nil_or_concat q with hq0 | ⟨q1, x, hq1⟩
    · exact hq0.symm
    · exfalso
      simp only [endsWith, List.isSuffixOf_iff_suffix] at hend
      obtain ⟨t, ht⟩ := hend
      rw [hrest, hq1] at ht
      have hx : x = byte '?' := by
        have h2 : t ++ str "?" = ((cut (byte '?') rest0).1 ++ byte '?' :: q1) ++ [x] := by
          rw [ht]; simp
        have h3 : str "?" = [byte '?'] := by decide
        rw [h3] at h2
        exact ((List.append_inj' h2 rfl).2 ▸ rfl : [x] = [byte '?']) |> List.singleton_inj.mp
      apply hnq
      rw [hq1, hx]
      simp
  · exact hcut.1

theorem parseNoFragment_rawQuery (s : GoString) (r : URL) (hs : s ≠ str "*")
    (h : parseNoFragment s = .ok r) :
    ∃ sch rest0, getScheme s = .ok (sch, rest0) ∧ r.RawQuery = (splitQuery rest0).2 := by
  unfold parseNoFragment at h
  rw [if_neg hs] at h
  split at h
  · cases h
  · split at h
    · cases h
    · rename_i sch rest0 hg
      refine ⟨sch, rest0, hg, ?_⟩
      simp only at h
      split at h
      · cases h; rfl
      · split at h
        · cases h
        · split at h
          · split at h
            · cases h
            · split at h
              · cases h
              · cases h; rfl
          · split at h
            · cases h
            · cases h; rfl

theorem Parse_of_no_hash (s : GoString) (h : byte '#' ∉ s) : Parse s = parseNoFragment s := by
  simp only [Parse, cut_of_not_mem _ _ h]
  cases hp : parseNoFragment s <;> simp

/-- What `join` guarantees about the query. When the base URL has no fragment,
the text that `join` writes before the query section (scheme, user info, host
and path) holds no `?` and no `#`, and the raw query of the base holds no `#`,
then the raw query of the URL that `join` returns is the raw query of the base,
`&` and the encoded parameters, or the encoded parameters alone when the base
has no query. -/
theorem join_rawQuery_plain (u : URL) (q : Values) (r : URL)
    (hfrag : u.Fragment = [])
    (hq : byte '?' ∉ joinPrefix u) (hh : byte '#' ∉ joinPrefix u)
    (hrq : byte '#' ∉ u.RawQuery)
    (h : join u q = .ok r) :
    r.RawQuery = joinQuery u q := by
  have hstr : joinString u q = joinPrefix u ++ byte '?' :: joinQuery u q := by
    have h1 : str "?" = [byte '?'] := by decide
    unfold joinString joinPrefix joinQuery
    rw [hfrag]
    by_cases hp : u.Path = [] <;> by_cases hr : u.RawQuery = [] <;>
      simp [hp, hr, h1, List.append_assoc]
  have hhash : byte '#' ∉ joinString u q := by
    rw [hstr]
    simp only [List.mem_append, List.mem_cons, not_or]
    refine ⟨hh, by decide, ?_⟩
    unfold joinQuery
    split
    · exact hash_not_mem_Encode q
    · simp only [List.mem_append, not_or]
      exact ⟨⟨hrq, by decide⟩, hash_not_mem_Encode q⟩
  unfold join at h
  rw [Parse_of_no_hash _ hhash] at h
  have hstar : joinString u q ≠ str "*" := by
    intro e
    have : byte '?' ∈ joinString u q := by rw [hstr]; simp
    rw [e] at this
    revert this
    decide
  obtain ⟨sch, rest0, hg, hr⟩ := parseNoFragment_rawQuery _ r hstar h
  rw [hr]
  rw [hstr] at hg
  exact splitQuery_after_scheme _ _ _ _ hq hg

theorem join_rawQuery_plain_witness :
    exampleBase.Fragment = [] ∧ byte '?' ∉ joinPrefix exampleBase ∧
      byte '#' ∉ joinPrefix exampleBase ∧ byte '#' ∉ exampleBase.RawQuery ∧
      join exampleBase [(str "b", [str "2"])] = .ok { exampleBase with RawQuery := str "a=1&b=2" } ∧
      (str "a=1&b=2" : GoString) = joinQuery exampleBase [(str "b", [str "2"])] :=
  ⟨rfl, by decide, by decide, by decide, by decide,
    join_rawQuery_plain exampleBase [(str "b", [str "2"])]
      { exampleBase with RawQuery := str "a=1&b=2" } rfl (by decide) (by decide) (by decide)
      (by decide)⟩

/-! ### Escaping and parsing of queries -/

set_option maxRecDepth 1000000 in
theorem hex_roundtrip_fin : ∀ n : Fin 256,
    ishex (upperhex (UInt8.mk (BitVec.ofFin n) >>> 4)) = true ∧
      ishex (upperhex (UInt8.mk (BitVec.ofFin n) &&& 15)) = true ∧
      (unhex (upperhex (UInt8.mk (BitVec.ofFin n) >>> 4)) <<< 4 |||
        unhex (upperhex (UInt8.mk (BitVec.ofFin n) &&& 15))) = UInt8.mk (BitVec.ofFin n) := by
  decide

theorem hex_roundtrip (c : UInt8) :
    ishex (upperhex (c >>> 4)) = true ∧ ishex (upperhex (c &&& 15)) = true ∧
      (unhex (upperhex (c >>> 4)) <<< 4 ||| unhex (upperhex (c &&& 15))) = c := by
  obtain ⟨⟨n⟩⟩ := c
  exact hex_roundtrip_fin n

theorem unescape_query_plain (c : UInt8) (rest : GoString) (hc : c ≠ byte '%') :
    unescape .encodeQueryComponent (c :: rest) =
      match unescape .encodeQueryComponent rest with
      | .ok t => .ok ((if c = byte '+' then byte ' ' else c) :: t)
      | .error e => .error e := by
  conv => lhs; unfold unescape
  simp [hc]

theorem unescape_query_hex (a b : UInt8) (rest : GoString) (ha : ishex a = true)
    (hb : ishex b = true) :
    unescape .encodeQueryComponent (byte '%' :: a :: b :: rest) =
      match unescape .encodeQueryComponent rest with
      | .ok t => .ok ((unhex a <<< 4 ||| unhex b) :: t)
      | .error e => .error e := by
  conv => lhs; unfold unescape
  simp [ha, hb]

theorem unescape_QueryEscape (s : GoString) : QueryUnescape (QueryEscape s) = .ok s := by
  unfold QueryUnescape QueryEscape
  induction s with
  | nil => simp [escape, unescape]
  | cons c rest ih =>
    rw [escape]
    split
    · rename_i hc
      rw [unescape_query_plain _ _ (by decide), ih]
      simp [hc.1]
    · split
      · obtain ⟨h1, h2, h3⟩ := hex_roundtrip c
        rw [unescape_query_hex _ _ _ h1 h2, ih]
        simp [h3]
      · rename_i hsp hesc
        have hp : c ≠ byte '%' := by
          intro e; apply hesc; rw [e]; decide
        have hpl : c ≠ byte '+' := by
          intro e; apply hesc; rw [e]; decide
        rw [unescape_query_plain _ _ hp, ih]
        simp [hpl]

/-- A byte that `QueryEscape` always escapes and that is not a hex digit, `+` or `%`
does not occur in the escaped text. -/
theorem not_mem_QueryEscape (x : UInt8) (hx : x ∈ str "#&;=") (s : GoString) :
    x ∉ QueryEscape s := by
  have hup : ∀ n, upperhex n ≠ x := by
    intro n h
    have hmem : upperhex n ∈ (0 : UInt8) :: str "0123456789ABCDEF" := by
      unfold upperhex
      rw [List.getD_eq_getElem?_getD]
      cases hg : (str "0123456789ABCDEF")[n.toNat]? with
      | none => simp
      | some v => exact List.mem_cons_of_mem _ (List.getElem?_mem hg)
    rw [h] at hmem
    revert hmem hx
    have : ∀ y ∈ str "#&;=", y ∉ (0 : UInt8) :: str "0123456789ABCDEF" := by decide
    exact fun hx hmem => this x hx hmem
  have hesc : shouldEscape x .encodeQueryComponent = true := by
    have : ∀ y ∈ str "#&;=", shouldEscape y .encodeQueryComponent = true := by decide
    exact this x hx
  have hne : x ≠ byte '+' ∧ x ≠ byte '%' := by
    have : ∀ y ∈ str "#&;=", y ≠ byte '+' ∧ y ≠ byte '%' := by decide
    exact this x hx
  unfold QueryEscape
  induction s with
  | nil => simp [escape]
  | cons c rest ih =>
    rw [escape]
    split
    · simp only [List.mem_cons, not_or]
      exact ⟨hne.1, ih⟩
    · split
      · simp only [List.mem_cons, not_or]
        exact ⟨hne.2, (hup _).symm, (hup _).symm, ih⟩
      · rename_i hs
        simp only [List.mem_cons, not_or]
        refine ⟨?_, ih⟩
        intro e
        apply hs
        rw [← e]
        exact hesc

theorem parseQueryPieces_eq (pieces : List GoString) :
    ∀ m : Values, parseQueryPieces m pieces =
      (pieces.filterMap parsePiece).foldl addPair m := by
  induction pieces with
  | nil => intro m; rfl
  | cons piece rest ih =>
    intro m
    rw [parseQueryPieces, List.filterMap_cons]
    by_cases h1 : byte ';' ∈ piece
    · have hp : parsePiece piece = none := by simp [parsePiece, h1]
      simp [h1, hp, ih]
    · by_cases h2 : piece = []
      · subst h2
        have hp : parsePiece [] = none := by simp [parsePiece]
        simp [hp, ih]
      · cases hk : QueryUnescape (cut (byte '=') piece).1 with
        | error e =>
          have hp : parsePiece piece = none := by simp [parsePiece, h1, h2, hk]
          simp [h1, h2, hk, hp, ih]
        | ok key =>
          cases hv : QueryUnescape (cut (byte '=') piece).2.1 with
          | error e =>
            have hp : parsePiece piece = none := by simp [parsePiece, h1, h2, hk, hv]
            simp [h1, h2, hk, hv, hp, ih, addPair]
          | ok value =>
            have hp : parsePiece piece = some (key, value) := by
              simp [parsePiece, h1, h2, hk, hv]
            simp [h1, h2, hk, hv, hp, ih, addPair]

theorem lookup_foldl_Add (pairs : List (GoString × GoString)) (K : GoString) :
    ∀ m : Values, (pairs.foldl addPair m).lookup K =
      m.lookup K ++ valuesOf pairs K := by
  induction pairs with
  | nil => intro m; simp [valuesOf]
  | cons kv rest ih =>
    intro m
    rw [List.foldl_cons, ih, addPair, lookup_Add]
    by_cases h : kv.1 = K <;> simp [valuesOf, h]

/-- A query of more than `defaultMaxParams` pieces parses to the empty map. -/
theorem ParseQuery_over_limit (query : GoString)
    (h : defaultMaxParams ≤ query.count (byte '&')) : ParseQuery query = [] := by
  unfold ParseQuery
  rw [if_pos (Nat.lt_succ_of_le h)]

/-- A query of at most `defaultMaxParams` pieces parses to the map of the pairs
that its pieces give, added in order. -/
theorem ParseQuery_eq (query : GoString) (hn : query.count (byte '&') < defaultMaxParams) :
    ParseQuery query =
      (queryPairs query).foldl addPair ([] : Values) := by
  unfold ParseQuery queryPairs
  rw [if_neg (by omega)]
  split
  · rename_i h
    subst h
    simp [split, parsePiece]
  · exact parseQueryPieces_eq _ _

theorem lookup_ParseQuery (query K : GoString) (hn : query.count (byte '&') < defaultMaxParams) :
    (ParseQuery query).lookup K = valuesOf (queryPairs query) K := by
  rw [ParseQuery_eq query hn, lookup_foldl_Add]
  simp [Values.lookup]

theorem split_ne_nil (sep : UInt8) (s : GoString) : split sep s ≠ [] := by
  induction s with
  | nil => simp [split]
  | cons c rest ih =>
    rw [split]
    split
    · simp
    · cases h : split sep rest with
      | nil => exact absurd h ih
      | cons x t => simp

theorem split_append (sep : UInt8) (a b : GoString) :
    split sep (a ++ sep :: b) = split sep a ++ split sep b := by
  induction a with
  | nil => simp [split]
  | cons c rest ih =>
    by_cases hc : c = sep
    · simp [split, hc, ih]
    · rw [List.cons_append, split, if_neg hc, ih, split, if_neg hc]
      cases h : split sep rest with
      | nil => exact absurd h (split_ne_nil sep rest)
      | cons x t => simp

theorem split_of_not_mem (sep : UInt8) (s : GoString) (h : sep ∉ s) : split sep s = [s] := by
  induction s with
  | nil => simp [split]
  | cons c rest ih =>
    have hc : c ≠ sep := fun e => h (by simp [e])
    have hr : sep ∉ rest := fun e => h (List.mem_cons_of_mem _ e)
    simp [split, hc, ih hr]

theorem split_joinAmp (ps : List GoString) (hne : ps ≠ [])
    (h : ∀ p ∈ ps, byte '&' ∉ p) : split (byte '&') (joinAmp ps) = ps := by
  induction ps with
  | nil => exact absurd rfl hne
  | cons p rest ih =>
    cases rest with
    | nil => simpa [joinAmp] using split_of_not_mem _ p (h p (List.mem_cons_self _ _))
    | cons q rest2 =>
      rw [joinAmp]
      have : p ++ [byte '&'] ++ joinAmp (q :: rest2) = p ++ byte '&' :: joinAmp (q :: rest2) := by
        simp
      rw [this, split_append, split_of_not_mem _ p (h p (List.mem_cons_self _ _)),
        ih (by simp) (fun x hx => h x (List.mem_cons_of_mem _ hx))]
      rfl

theorem parsePiece_encoded (k v : GoString) :
    parsePiece (QueryEscape k ++ byte '=' :: QueryEscape v) = some (k, v) := by
  have hsemi : byte ';' ∉ QueryEscape k ++ byte '=' :: QueryEscape v := by
    simp only [List.mem_append, List.mem_cons, not_or]
    exact ⟨not_mem_QueryEscape _ (by decide) k, by decide, not_mem_QueryEscape _ (by decide) v⟩
  have hne : QueryEscape k ++ byte '=' :: QueryEscape v ≠ [] := by simp
  have hcut : cut (byte '=') (QueryEscape k ++ byte '=' :: QueryEscape v) =
      (QueryEscape k, QueryEscape v, true) :=
    cut_at _ _ _ (not_mem_QueryEscape _ (by decide) k)
  rw [parsePiece, if_neg hsemi, if_neg hne, hcut]
  simp only [unescape_QueryEscape]

theorem amp_not_mem_encodePairs (v : Values) : ∀ p ∈ encodePairs v, byte '&' ∉ p := by
  induction v with
  | nil => simp [encodePairs]
  | cons e rest ih =>
    obtain ⟨k, vs⟩ := e
    intro p hp
    rw [encodePairs, List.mem_append] at hp
    rcases hp with hp | hp
    · obtain ⟨x, _, rfl⟩ := List.mem_map.mp hp
      simp only [List.mem_append, List.mem_singleton, not_or]
      exact ⟨⟨not_mem_QueryEscape _ (by decide) k, by decide⟩,
        not_mem_QueryEscape _ (by decide) x⟩
    · exact ih p hp

theorem filterMap_encodePairs (v : Values) :
    (encodePairs v).filterMap parsePiece = flatPairs v := by
  induction v with
  | nil => simp [encodePairs, flatPairs]
  | cons e rest ih =>
    obtain ⟨k, vs⟩ := e
    rw [encodePairs, List.filterMap_append, ih]
    simp only [flatPairs, List.flatMap_cons]
    congr 1
    induction vs with
    | nil => simp
    | cons x xs ihx =>
      simp only [List.map_cons, List.filterMap_cons, List.append_assoc, List.singleton_append,
        parsePiece_encoded] at ihx ⊢
      rw [ihx]

/-- Parsing an encoded parameter set gives back its pairs, by sorted key. -/
theorem queryPairs_Encode (v : Values) : queryPairs v.Encode = flatPairs (sortByKey v) := by
  unfold queryPairs Values.Encode
  by_cases h : encodePairs (sortByKey v) = []
  · rw [h]
    have : flatPairs (sortByKey v) = [] := by
      rw [← filterMap_encodePairs, h]; rfl
    rw [this]
    simp [joinAmp, split, parsePiece]
  · rw [split_joinAmp _ h (amp_not_mem_encodePairs _), filterMap_encodePairs]

theorem queryPairs_append (a b : GoString) :
    queryPairs (a ++ str "&" ++ b) = queryPairs a ++ queryPairs b := by
  have h : a ++ str "&" ++ b = a ++ byte '&' :: b := by
    have : str "&" = [byte '&'] := by decide
    rw [this]; simp
  rw [h, queryPairs, split_append, List.filterMap_append]
  rfl

theorem valuesOf_append (a b : List (GoString × GoString)) (K : GoString) :
    valuesOf (a ++ b) K = valuesOf a K ++ valuesOf b K := by
  simp [valuesOf]

theorem strLt_irrefl (a : GoString) : strLt a a = false := by
  induction a with
  | nil => rfl
  | cons c rest ih => simp [strLt, ih]

theorem valuesOf_flatPairs_cons (e : GoString × List GoString) (l : Values) (K : GoString) :
    valuesOf (flatPairs (e :: l)) K =
      (if e.1 = K then e.2 else []) ++ valuesOf (flatPairs l) K := by
  simp only [flatPairs, List.flatMap_cons, valuesOf_append]
  congr 1
  by_cases h : e.1 = K
  · simp [valuesOf, h, List.filter_map, Function.comp_def]
  · simp [valuesOf, h, List.filter_map, Function.comp_def]

theorem valuesOf_insertByKey (e : GoString × List GoString) (l : Values) (K : GoString) :
    valuesOf (flatPairs (insertByKey e l)) K = valuesOf (flatPairs (e :: l)) K := by
  induction l with
  | nil => rfl
  | cons x rest ih =>
    rw [insertByKey]
    split
    · rename_i hlt
      have hne : x.1 ≠ e.1 := by
        intro heq
        rw [heq, strLt_irrefl] at hlt
        cases hlt
      rw [valuesOf_flatPairs_cons, ih, valuesOf_flatPairs_cons, valuesOf_flatPairs_cons,
        valuesOf_flatPairs_cons]
      by_cases h1 : x.1 = K
      · have h2 : e.1 ≠ K := fun h => hne (h1.trans h.symm)
        simp [h1, h2]
      · simp [h1]
    · rfl

theorem valuesOf_sortByKey (v : Values) (K : GoString) :
    valuesOf (flatPairs (sortByKey v)) K = valuesOf (flatPairs v) K := by
  induction v with
  | nil => rfl
  | cons e rest ih =>
    rw [sortByKey, valuesOf_insertByKey, valuesOf_flatPairs_cons, ih, valuesOf_flatPairs_cons]

theorem keys_Add (m : Values) (k v : GoString) :
    (m.Add k v).map Prod.fst =
      if k ∈ m.map Prod.fst then m.map Prod.fst else m.map Prod.fst ++ [k] := by
  induction m with
  | nil => simp [Values.Add]
  | cons e rest ih =>
    obtain ⟨k1, vs⟩ := e
    by_cases h : k1 = k
    · simp [Values.Add, h]
    · have h2 : k ≠ k1 := Ne.symm h
      simp only [Values.Add, h, if_false, List.map_cons, ih, List.mem_cons, h2, false_or]
      split <;> simp

theorem keys_nodup_Add (m : Values) (k v : GoString) (h : (m.map Prod.fst).Nodup) :
    ((m.Add k v).map Prod.fst).Nodup := by
  rw [keys_Add]
  split
  · exact h
  · rename_i hk
    rw [List.nodup_append]
    exact ⟨h, List.nodup_singleton k, by simpa using hk⟩

theorem keys_nodup_foldl (pairs : List (GoString × GoString)) :
    ∀ m : Values, (m.map Prod.fst).Nodup → ((pairs.foldl addPair m).map Prod.fst).Nodup := by
  induction pairs with
  | nil => intro m h; exact h
  | cons kv rest ih =>
    intro m h
    exact ih _ (keys_nodup_Add m kv.1 kv.2 h)

theorem keys_nodup_ParseQuery (query : GoString) : ((ParseQuery query).map Prod.fst).Nodup := by
  by_cases hn : query.count (byte '&') < defaultMaxParams
  · rw [ParseQuery_eq query hn]
    exact keys_nodup_foldl _ _ List.nodup_nil
  · rw [ParseQuery_over_limit query (by omega)]
    exact List.nodup_nil

theorem valuesOf_flatPairs_of_not_mem (v : Values) (K : GoString) (h : K ∉ v.map Prod.fst) :
    valuesOf (flatPairs v) K = [] := by
  induction v with
  | nil => rfl
  | cons e rest ih =>
    simp only [List.map_cons, List.mem_cons, not_or] at h
    rw [valuesOf_flatPairs_cons, ih h.2, if_neg (Ne.symm h.1)]
    rfl

/-- In a parameter set with distinct keys the values of a key, entry by entry,
are the value list of the key. -/
theorem valuesOf_flatPairs (v : Values) (K : GoString) (h : (v.map Prod.fst).Nodup) :
    valuesOf (flatPairs v) K = v.lookup K := by
  induction v with
  | nil => rfl
  | cons e rest ih =>
    obtain ⟨k, vs⟩ := e
    simp only [List.map_cons, List.nodup_cons] at h
    rw [valuesOf_flatPairs_cons]
    by_cases hk : k = K
    · subst hk
      simp [Values.lookup, valuesOf_flatPairs_of_not_mem rest k h.1]
    · simp [Values.lookup, hk, ih h.2]

theorem authQuery_eq (query : Values) (host returnTo : GoString) :
    authQuery query host returnTo = (authAdded host returnTo).foldl addPair query := rfl

/-- The raw query of the base is a part of the query section that `join`
writes, so it has no more pieces than the section. -/
theorem count_rawQuery_le_joinQuery (u : URL) (q : Values) :
    u.RawQuery.count (byte '&') ≤ (joinQuery u q).count (byte '&') := by
  unfold joinQuery
  split
  · rename_i h
    simp [h]
  · simp only [List.count_append]
    omega

/-- The parsed query of what `join` composes from a base URL and the
parameters `GetAuthURL` builds, the composed query having at most
`defaultMaxParams` pieces: for every key, the values of the base's own query,
the same values once more (the copy that `endp.Query()` put into the parameter
set), then the values that `GetAuthURL` adds for the key. -/
theorem lookup_joinQuery_authQuery (endp : URL) (host returnTo K : GoString)
    (hn : (joinQuery endp (authQuery endp.Query host returnTo)).count (byte '&') <
      defaultMaxParams) :
    (ParseQuery (joinQuery endp (authQuery endp.Query host returnTo))).lookup K =
      endp.Query.lookup K ++ endp.Query.lookup K ++ valuesOf (authAdded host returnTo) K := by
  have hrqn : endp.RawQuery.count (byte '&') < defaultMaxParams :=
    Nat.lt_of_le_of_lt (count_rawQuery_le_joinQuery endp _) hn
  have hnodup : ((authQuery endp.Query host returnTo).map Prod.fst).Nodup := by
    rw [authQuery_eq]
    exact keys_nodup_foldl _ _ (keys_nodup_ParseQuery _)
  have hv : valuesOf (queryPairs (authQuery endp.Query host returnTo).Encode) K =
      endp.Query.lookup K ++ valuesOf (authAdded host returnTo) K := by
    rw [queryPairs_Encode, valuesOf_sortByKey, valuesOf_flatPairs _ _ hnodup, authQuery_eq,
      lookup_foldl_Add]
  rw [lookup_ParseQuery _ _ hn, joinQuery]
  split
  · rename_i hrq
    rw [hv]
    have : endp.Query.lookup K = [] := by
      simp [URL.Query, hrq, ParseQuery, Values.lookup]
    rw [this]
    simp
  · rw [queryPairs_append, valuesOf_append, hv, URL.Query, lookup_ParseQuery _ _ hrqn]
    simp

theorem cut_snd_subset (sep : UInt8) (s : GoString) : ∀ x ∈ (cut sep s).2.1, x ∈ s := by
  induction s with
  | nil => simp [cut]
  | cons c rest ih =>
    by_cases h : c = sep
    · simp only [cut, h, if_true]
      exact fun x hx => List.mem_cons_of_mem _ hx
    · simp only [cut, h, if_false]
      exact fun x hx => List.mem_cons_of_mem _ (ih x hx)

/-- The raw query of a parsed URL holds no `#`. -/
theorem Parse_rawQuery_no_hash (s : GoString) (u : URL) (h : Parse s = .ok u) :
    byte '#' ∉ u.RawQuery := by
  have key : ∀ u0, parseNoFragment (cut (byte '#') s).1 = .ok u0 → byte '#' ∉ u0.RawQuery := by
    intro u0 h0
    by_cases hs : (cut (byte '#') s).1 = str "*"
    · rw [hs, parseNoFragment, if_neg (by decide), if_pos rfl] at h0
      cases h0
      simp
    · obtain ⟨sch, rest0, hg, hr⟩ := parseNoFragment_rawQuery _ u0 hs h0
      have hraw := cut_fst_not_mem (byte '#') s
      have hrest : ∀ x ∈ rest0, x ∈ (cut (byte '#') s).1 := by
        rcases getSchemeLoop_rest _ _ _ _ _ _ hg with h1 | ⟨pre, hpre, _⟩
        · rw [h1]; exact fun x hx => hx
        · intro x hx
          rw [hpre]
          simp [hx]
      rw [hr]
      unfold splitQuery
      split
      · simp
      · intro hmem
        exact hraw (hrest _ (cut_snd_subset _ _ _ hmem))
  cases h0 : parseNoFragment (cut (byte '#') s).1 with
  | error e => simp [Parse, h0] at h
  | ok u0 =>
    have hk := key u0 h0
    simp only [Parse, h0] at h
    split at h
    · cases h; exact hk
    · split at h
      · cases h
      · cases h; exact hk

theorem valuesOf_authAdded (host returnTo : GoString) :
    ∀ kv ∈ authAdded host returnTo, valuesOf (authAdded host returnTo) kv.1 = [kv.2] := by
  intro kv hkv
  simp only [authAdded, List.mem_cons, List.mem_singleton, List.not_mem_nil, or_false] at hkv
  rcases hkv with rfl | rfl | rfl | rfl | rfl | rfl | rfl | rfl | rfl <;>
    simp +decide [valuesOf, authAdded, List.filter_cons]

/-! ### The parameters of the URL that `GetAuthURL` returns -/

/-- The URL that `GetAuthURL` returns when discovery resolves the endpoint
`endp`: what `join` makes of the endpoint and the parameter set. -/
theorem GetAuthURL_eq_join (net : Net) (w : World) (host returnTo xrd : GoString) (endp : URL)
    (hw : w.endpoint = none) (hd : net.discover w.fetches = .ok xrd)
    (hp : Parse xrd = .ok endp) :
    GetAuthURL net w host returnTo =
      .done (join endp (authQuery endp.Query host returnTo),
        { w with fetches := w.fetches + 1 }) := by
  simp only [GetAuthURL, getEndpoint, hw, hd, hp]

/-- The endpoint's own parameters, twice. When discovery resolves an endpoint
`endp` that has no fragment and whose scheme, user info, host and path, as
`join` writes them, hold no `?` and no `#`, and `GetAuthURL` returns a URL `u`
whose raw query has at most `defaultMaxParams` pieces, then for every key the
parsed query of `u` lists the values `vs` that the endpoint's own query has for
the key, then `vs` again, then the values that `GetAuthURL` adds for the key. -/
theorem GetAuthURL_doubles_endpoint_query (net : Net) (w w1 : World)
    (host returnTo xrd : GoString) (endp u : URL)
    (hw : w.endpoint = none) (hd : net.discover w.fetches = .ok xrd)
    (hp : Parse xrd = .ok endp)
    (hfrag : endp.Fragment = [])
    (hq : byte '?' ∉ joinPrefix endp) (hh : byte '#' ∉ joinPrefix endp)
    (hg : GetAuthURL net w host returnTo = .done (.ok u, w1))
    (hn : u.RawQuery.count (byte '&') < defaultMaxParams) (K : GoString) :
    u.Query.lookup K =
      endp.Query.lookup K ++ endp.Query.lookup K ++ valuesOf (authAdded host returnTo) K := by
  rw [GetAuthURL_eq_join net w host returnTo xrd endp hw hd hp] at hg
  simp only [Run.done.injEq, Prod.mk.injEq] at hg
  have hrq := join_rawQuery_plain endp _ u hfrag hq hh (Parse_rawQuery_no_hash xrd endp hp) hg.1
  rw [hrq] at hn
  rw [URL.Query, hrq]
  exact lookup_joinQuery_authQuery endp host returnTo K hn

/-- Beyond the piece limit. When discovery resolves an endpoint `endp` as above
whose own raw query has more than `defaultMaxParams` pieces, `endp.Query()` is
empty, the URL `u` that `GetAuthURL` returns carries the endpoint's raw query
once, followed by the nine added parameters, and `u.Query()` is empty as well. -/
theorem GetAuthURL_endpoint_over_limit (net : Net) (w w1 : World)
    (host returnTo xrd : GoString) (endp u : URL)
    (hw : w.endpoint = none) (hd : net.discover w.fetches = .ok xrd)
    (hp : Parse xrd = .ok endp)
    (hfrag : endp.Fragment = [])
    (hq : byte '?' ∉ joinPrefix endp) (hh : byte '#' ∉ joinPrefix endp)
    (hg : GetAuthURL net w host returnTo = .done (.ok u, w1))
    (hn : defaultMaxParams ≤ endp.RawQuery.count (byte '&')) :
    endp.Query = [] ∧
      u.RawQuery = endp.RawQuery ++ str "&" ++ (authQuery [] host returnTo).Encode ∧
      u.Query = [] := by
  have he : endp.Query = [] := ParseQuery_over_limit _ hn
  rw [GetAuthURL_eq_join net w host returnTo xrd endp hw hd hp] at hg
  simp only [Run.done.injEq, Prod.mk.injEq] at hg
  have hrq := join_rawQuery_plain endp _ u hfrag hq hh (Parse_rawQuery_no_hash xrd endp hp) hg.1
  have hne : endp.RawQuery ≠ [] := by
    intro h
    rw [h] at hn
    simp [defaultMaxParams] at hn
  refine ⟨he, ?_, ?_⟩
  · rw [hrq, he, joinQuery, if_neg hne]
  · apply ParseQuery_over_limit
    rw [hrq]
    exact Nat.le_trans hn (count_rawQuery_le_joinQuery endp _)

set_option maxRecDepth 100000 in
theorem GetAuthURL_doubles_endpoint_query_witness :
    World.initial.endpoint = none ∧
      (exampleNet exampleEndpointQ []).discover World.initial.fetches = .ok exampleEndpointQ ∧
      Parse exampleEndpointQ = .ok exampleEndpointURL ∧
      exampleEndpointURL.Fragment = [] ∧
      byte '?' ∉ joinPrefix exampleEndpointURL ∧ byte '#' ∉ joinPrefix exampleEndpointURL ∧
      GetAuthURL (exampleNet exampleEndpointQ []) World.initial (str "example.com")
          (str "http://a/b") =
        .done (.ok exampleAuthURL, { World.initial with fetches := 1 }) ∧
      exampleAuthURL.RawQuery.count (byte '&') < defaultMaxParams ∧
      exampleAuthURL.Query.lookup (str "a") =
        exampleEndpointURL.Query.lookup (str "a") ++ exampleEndpointURL.Query.lookup (str "a") ++
          valuesOf (authAdded (str "example.com") (str "http://a/b")) (str "a") ∧
      exampleEndpointURL.Query.lookup (str "a") = [str "1"] :=
  ⟨rfl, rfl, by decide, rfl, by decide, by decide, by decide, by decide,
    GetAuthURL_doubles_endpoint_query (exampleNet exampleEndpointQ []) World.initial
      { World.initial with fetches := 1 } (str "example.com") (str "http://a/b")
      exampleEndpointQ exampleEndpointURL exampleAuthURL rfl rfl (by decide) rfl (by decide)
      (by decide) (by decide) (by decide) (str "a"),
    by decide⟩

set_option maxRecDepth 100000 in
/-- C19 (the code at the failing input). The endpoint `https://p/ud?a=1#f` has
the well-formed raw query `a=1`, with the one value `1` for `a`; `GetAuthURL`
succeeds, yet the parsed query of the URL it returns lists no value for `a`,
neither twice nor once: `join` writes the query section after the fragment. -/
theorem GetAuthURL_fragment_endpoint_loses_query :
    Parse (str "https://p/ud?a=1#f") =
        .ok { Scheme := str "https", Opaque := [], User := none, Host := str "p",
              Path := str "/ud", RawQuery := str "a=1", Fragment := str "f" } ∧
      ParseQuery (str "a=1") = [(str "a", [str "1"])] ∧
      authURLValues (exampleNet (str "https://p/ud?a=1#f") []) World.initial (str "example.com")
        (str "http://a/b") (str "a") = .done (.ok []) := by
  decide

/-- C12, amended. When discovery resolves an endpoint `endp` that has no fragment
and whose scheme, user info, host and path, as `join` writes them, hold no `?`
and no `#`, and `GetAuthURL` returns a URL `u` whose raw query has at most
`defaultMaxParams` (10000) pieces, then for each of the nine parameters `(key, value)` of `authAdded` (`openid.mode = checkid_setup`,
`openid.ns`, `openid.return_to`, `openid.claimed_id`, `openid.identity`,
`openid.ns.ax`, `openid.ax.mode`, `openid.ax.required`, `openid.ax.type.email`
with their fixed values) the parsed query of `u` lists `value` as the last value
of `key`; when the endpoint's own query has no value for `key`, `value` is the
only value of `key`, the one that `Get` returns. -/
theorem GetAuthURL_parameters (net : Net) (w w1 : World)
    (host returnTo xrd : GoString) (endp u : URL)
    (hw : w.endpoint = none) (hd : net.discover w.fetches = .ok xrd)
    (hp : Parse xrd = .ok endp)
    (hfrag : endp.Fragment = [])
    (hq : byte '?' ∉ joinPrefix endp) (hh : byte '#' ∉ joinPrefix endp)
    (hg : GetAuthURL net w host returnTo = .done (.ok u, w1))
    (hn : u.RawQuery.count (byte '&') < defaultMaxParams) :
    ∀ kv ∈ authAdded host returnTo,
      (u.Query.lookup kv.1).getLast? = some kv.2 ∧
        (endp.Query.lookup kv.1 = [] →
          u.Query.lookup kv.1 = [kv.2] ∧ u.Query.Get kv.1 = kv.2) := by
  intro kv hkv
  have hl := GetAuthURL_doubles_endpoint_query net w w1 host returnTo xrd endp u hw hd hp
    hfrag hq hh hg hn kv.1
  rw [valuesOf_authAdded host returnTo kv hkv] at hl
  constructor
  · rw [hl]; simp
  · intro hempty
    rw [hempty] at hl
    simp only [List.nil_append] at hl
    exact ⟨hl, by simp [Values.Get, hl]⟩

set_option maxRecDepth 100000 in
theorem GetAuthURL_parameters_witness :
    World.initial.endpoint = none ∧
      (exampleNet exampleEndpointQ []).discover World.initial.fetches = .ok exampleEndpointQ ∧
      Parse exampleEndpointQ = .ok exampleEndpointURL ∧
      exampleEndpointURL.Fragment = [] ∧
      byte '?' ∉ joinPrefix exampleEndpointURL ∧ byte '#' ∉ joinPrefix exampleEndpointURL ∧
      GetAuthURL (exampleNet exampleEndpointQ []) World.initial (str "example.com")
          (str "http://a/b") =
        .done (.ok exampleAuthURL, { World.initial with fetches := 1 }) ∧
      exampleAuthURL.RawQuery.count (byte '&') < defaultMaxParams ∧
      ∀ kv ∈ authAdded (str "example.com") (str "http://a/b"),
        (exampleAuthURL.Query.lookup kv.1).getLast? = some kv.2 ∧
          (exampleEndpointURL.Query.lookup kv.1 = [] →
            exampleAuthURL.Query.lookup kv.1 = [kv.2] ∧ exampleAuthURL.Query.Get kv.1 = kv.2) :=
  ⟨rfl, rfl, by decide, rfl, by decide, by decide, by decide, by decide,
    GetAuthURL_parameters (exampleNet exampleEndpointQ []) World.initial
      { World.initial with fetches := 1 } (str "example.com") (str "http://a/b")
      exampleEndpointQ exampleEndpointURL exampleAuthURL rfl rfl (by decide) rfl (by decide)
      (by decide) (by decide) (by decide)⟩

set_option maxRecDepth 100000 in
/-- C12 (counterexample). For the endpoint `https://p/ud?openid.mode=x`, whose
own query carries `openid.mode`, `GetAuthURL` succeeds and the parsed query of
the returned URL lists `x`, `x`, `checkid_setup` for `openid.mode`: the value of
the key (the first one, which `Get` returns) is `x`, not `checkid_setup`. For the
endpoint `https://p/ud#f` `GetAuthURL` succeeds and the parsed query lists no
value at all for `openid.mode`. -/
theorem GetAuthURL_mode_not_checkid_setup :
    authURLValues (exampleNet (str "https://p/ud?openid.mode=x") []) World.initial
        (str "example.com") (str "http://a/b") (str "openid.mode") =
      .done (.ok [str "x", str "x", str "checkid_setup"]) ∧
    authURLValues (exampleNet (str "https://p/ud#f") []) World.initial
        (str "example.com") (str "http://a/b") (str "openid.mode") = .done (.ok []) := by
  decide

/-! ### `GetAuthURL` and `join` on concrete inputs -/

set_option maxRecDepth 100000 in
/-- C5 (the code at the failing input). For the request host `example.com` and
the return URL `http://a/b?x=1&y=2`, `GetAuthURL` succeeds, and reading
`openid.secondary_return_to` back from the `openid.return_to` parameter of the
returned URL gives `http://a/b?x=1`: the text after the `&` is lost. -/
theorem GetAuthURL_returnTo_truncated :
    returnToRoundTrip (exampleNet exampleEndpoint []) World.initial (str "example.com")
        (str "http://a/b?x=1&y=2") = .done (.ok (str "http://a/b?x=1")) ∧
      str "http://a/b?x=1" ≠ str "http://a/b?x=1&y=2" := by
  decide

/-- C6 (the code at the failing input). The base URL `http://h/a%3Fb?x=1` has no
fragment, path `/a?b` and raw query `x=1`; `join` with the parameter `k=v`
succeeds and returns a URL whose raw query is `b?x=1&k=v`, not `x=1&k=v`, and
whose path is `/a`. -/
theorem join_query_after_path_with_question_mark :
    Parse (str "http://h/a%3Fb?x=1") =
        .ok { Scheme := str "http", Opaque := [], User := none, Host := str "h",
              Path := str "/a?b", RawQuery := str "x=1", Fragment := [] } ∧
      Values.Encode [(str "k", [str "v"])] = str "k=v" ∧
      join { Scheme := str "http", Opaque := [], User := none, Host := str "h",
             Path := str "/a?b", RawQuery := str "x=1", Fragment := [] }
          [(str "k", [str "v"])] =
        .ok { Scheme := str "http", Opaque := [], User := none, Host := str "h",
              Path := str "/a", RawQuery := str "b?x=1&k=v", Fragment := [] } := by
  decide

/-- C7 (the code at the failing input). The base URL `http://h/p#f` has fragment
`f`; `join` with the parameter `k=v` succeeds and returns a URL whose fragment is
`f?k=v` and whose raw query is empty: the query section is written after the
fragment and is read back as part of it. -/
theorem join_fragment_swallows_query :
    Parse (str "http://h/p#f") =
        .ok { Scheme := str "http", Opaque := [], User := none, Host := str "h",
              Path := str "/p", RawQuery := [], Fragment := str "f" } ∧
      join { Scheme := str "http", Opaque := [], User := none, Host := str "h",
             Path := str "/p", RawQuery := [], Fragment := str "f" }
          [(str "k", [str "v"])] =
        .ok { Scheme := str "http", Opaque := [], User := none, Host := str "h",
              Path := str "/p", RawQuery := [], Fragment := str "f?k=v" } := by
  decide


/-! ### `Parse` on hosts -/

set_option maxRecDepth 100000 in
/-- Hosts that `Parse` refuses and hosts that it accepts: the text between
brackets must be an IPv6 address, and outside brackets a colon may only stand in
front of the port. -/
theorem Parse_hosts :
    Parse (str "http://[abc]/") = .error .parse ∧
      Parse (str "http://[1.2.3.4]/") = .error .parse ∧
      Parse (str "http://localhost:80:80/") = .error .parse ∧
      Parse (str "http://::1/") = .error .parse ∧
      (Parse (str "http://[::1]:80/x")).map URL.Host = .ok (str "[::1]:80") ∧
      (Parse (str "http://[fe80::1%25en0]/")).map URL.Host = .ok (str "[fe80::1%en0]") ∧
      (Parse (str "http://localhost:80/")).map URL.Host = .ok (str "localhost:80") := by
  decide

end Gopenid
